import Mathlib

/-!
Verification development for the blog-extraction tool (`blog_extractor.py` and
its front-ends).  The Python source is shallowly embedded: strings are modelled
as `List Char`, the parsed HTML tree as the nested inductive `HNode`, and each
relevant method of `BlogExtractor` as a Lean function that mirrors the source's
control flow.  External collaborators (the HTTP fetch layer, BeautifulSoup's
tokenizer, `dateutil`, Python's salted `hash`) are abstracted as parameters or
modelled on the fragment language actually exercised, as documented at each
definition.
-/

namespace BlogTool

/-! ## Basic character and string utilities -/

/-- Python `str.isspace`-style whitespace test, restricted to the whitespace
characters that actually occur in this development (ASCII whitespace plus the
non-breaking space, which Python's `str.strip` also removes). -/
def isPySpace (c : Char) : Bool :=
  c == ' ' || c == '\t' || c == '\n' || c == '\r' || c == '\x0b' || c == '\x0c' || c == ' '

/-- Drop leading whitespace, as Python's `str.lstrip()`. -/
def pyLStrip (l : List Char) : List Char := l.dropWhile isPySpace

/-- Drop trailing whitespace, defined by direct recursion so that it unfolds
structurally.  `pyRStrip (c :: r)` keeps `c` unless everything after it is
whitespace and `c` is whitespace itself. -/
def pyRStrip : List Char → List Char
  | [] => []
  | c :: r =>
    match pyRStrip r with
    | [] => if isPySpace c then [] else [c]
    | d :: t => c :: d :: t

/-- Python `str.strip()`. -/
def pyStrip (l : List Char) : List Char := pyRStrip (pyLStrip l)

/-- Lower-case a character (ASCII only, which covers every comparison the
source performs against its lower-case stop lists). -/
def lowerChar (c : Char) : Char :=
  if 'A' ≤ c ∧ c ≤ 'Z' then Char.ofNat (c.toNat + 32) else c

/-- Python `str.lower()` on the ASCII range. -/
def pyLower (l : List Char) : List Char := l.map lowerChar

/-- Substring test: `containsSub pat l` is true iff `pat` occurs contiguously
inside `l`, mirroring Python's `pat in s`. -/
def containsSub (pat : List Char) : List Char → Bool
  | [] => pat.isEmpty
  | c :: r => pat.isPrefixOf (c :: r) || containsSub pat r

/-- Auxiliary word counter; the flag records whether the scan is inside a
word.  Mirrors `len(s.split())` in Python (split on whitespace runs,
empty pieces discarded). -/
def wordCountAux : List Char → Bool → Nat
  | [], inWord => if inWord then 1 else 0
  | c :: r, inWord =>
    if isPySpace c then (if inWord then 1 else 0) + wordCountAux r false
    else wordCountAux r true

/-- Number of whitespace-separated words, Python's `len(s.split())`. -/
def wordCount (l : List Char) : Nat := wordCountAux l false

/-! ## CDATA serialization (`_write_xml_post`) and its inverse

The writer emits `<content:encoded><![CDATA[` + escaped content + `]]>` +
`</content:encoded>`, where the escape is Python's
`content.replace(']]>', ']]]]><![CDATA[>')` (the WordPress `wxr_cdata`
idiom).  Parsing back concatenates the contents of the adjacent CDATA
sections. -/

/-- The three characters `]]>` that terminate a CDATA section. -/
def cdataEnd : List Char := [']', ']', '>']

/-- The nine characters `<![CDATA[` that open a CDATA section. -/
def cdataHeader : List Char := ['<', '!', '[', 'C', 'D', 'A', 'T', 'A', '[']

/-- The fifteen characters `]]]]><![CDATA[>` substituted for each `]]>`. -/
def cdataSplit : List Char :=
  [']', ']', ']', ']', '>', '<', '!', '[', 'C', 'D', 'A', 'T', 'A', '[', '>']

/-- Python's `content.replace(']]>', ']]]]><![CDATA[>')`: non-overlapping
left-to-right replacement of every occurrence of `]]>`. -/
def wxr_cdata_escape : List Char → List Char
  | ']' :: ']' :: '>' :: rest => cdataSplit ++ wxr_cdata_escape rest
  | c :: rest => c :: wxr_cdata_escape rest
  | [] => []

/-- One step of an XML parser positioned just after `<![CDATA[`: take the
section's content up to the first `]]>` and return it with the remainder of
the input; `none` when the section is unterminated. -/
def takeCDATA : List Char → Option (List Char × List Char)
  | ']' :: ']' :: '>' :: rest => some ([], rest)
  | c :: rest => (takeCDATA rest).map (fun p => (c :: p.1, p.2))
  | [] => none

theorem wxr_escape_term (rest : List Char) :
    wxr_cdata_escape (']' :: ']' :: '>' :: rest) = cdataSplit ++ wxr_cdata_escape rest := rfl

theorem wxr_escape_cons (c : Char) (rest : List Char)
    (h : (c :: rest).take 3 ≠ cdataEnd) :
    wxr_cdata_escape (c :: rest) = c :: wxr_cdata_escape rest := by
  rw [wxr_cdata_escape.eq_def]
  split
  all_goals first
    | rfl
    | (exact absurd rfl h)
    | (rename_i heq
       exact absurd ((by rw [heq]; rfl) : (c :: rest).take 3 = cdataEnd) h)
    | (rename_i heq
       injection heq with h1 h2
       subst h1; subst h2; rfl)
    | (rename_i heq
       exact absurd heq (by simp))

theorem takeCDATA_term (rest : List Char) :
    takeCDATA (']' :: ']' :: '>' :: rest) = some ([], rest) := rfl

theorem takeCDATA_cons (c : Char) (rest : List Char)
    (h : (c :: rest).take 3 ≠ cdataEnd) :
    takeCDATA (c :: rest) = (takeCDATA rest).map (fun p => (c :: p.1, p.2)) := by
  rw [takeCDATA.eq_def]
  split
  all_goals first
    | rfl
    | (exact absurd rfl h)
    | (rename_i heq
       exact absurd ((by rw [heq]; rfl) : (c :: rest).take 3 = cdataEnd) h)
    | (rename_i heq
       injection heq with h1 h2
       subst h1; subst h2; rfl)
    | (rename_i heq
       exact absurd heq (by simp))

theorem takeCDATA_length : ∀ (l cont rest : List Char),
    takeCDATA l = some (cont, rest) → rest.length + 3 ≤ l.length := by
  intro l
  induction l with
  | nil => intro cont rest h; simp [takeCDATA] at h
  | cons c t ih =>
    intro cont rest h
    by_cases hsh : (c :: t).take 3 = cdataEnd
    · rcases t with _ | ⟨d, _ | ⟨e, r⟩⟩ <;> simp [cdataEnd] at hsh
      obtain ⟨h1, h2, h3⟩ := hsh
      subst h1; subst h2; subst h3
      rw [takeCDATA_term] at h
      injection h with h
      injection h with h1 h2
      subst h2
      simp
    · rw [takeCDATA_cons c t hsh] at h
      cases ht : takeCDATA t with
      | none => rw [ht] at h; simp at h
      | some p =>
        rw [ht] at h
        simp at h
        obtain ⟨h1, h2⟩ := h
        have := ih p.1 p.2 (by rw [ht])
        subst h2
        simp
        omega

/-- Fuelled worker for the CDATA-section reader.  One unit of fuel is spent
per section; since every section consumes at least the three terminator
characters, `length + 1` fuel always suffices (see `cdataChain`). -/
def cdataChainF : Nat → List Char → Option (List Char × List Char)
  | 0, _ => none
  | fuel + 1, input =>
    match takeCDATA input with
    | none => none
    | some (content, rest) =>
      if cdataHeader.isPrefixOf rest then
        match cdataChainF fuel (rest.drop cdataHeader.length) with
        | some (c2, tail) => some (content ++ c2, tail)
        | none => none
      else some (content, rest)

/-- Parse a maximal run of adjacent CDATA sections.  The input is positioned
just after an opening `<![CDATA[`; after each section terminator the parse
continues into a following section iff the remainder starts with `<![CDATA[`,
and the decoded content is the concatenation of the sections' contents —
exactly how an XML reader sees the writer's split sections. -/
def cdataChain (input : List Char) : Option (List Char × List Char) :=
  cdataChainF (input.length + 1) input

theorem cdataChainF_congr : ∀ (f1 : Nat), ∀ (f2 : Nat) (input : List Char),
    input.length < f1 → input.length < f2 →
    cdataChainF f1 input = cdataChainF f2 input := by
  intro f1
  induction f1 with
  | zero => intro f2 input h1 h2; omega
  | succ f1 ih =>
    intro f2 input h1 h2
    cases f2 with
    | zero => omega
    | succ f2 =>
      show cdataChainF (f1 + 1) input = cdataChainF (f2 + 1) input
      rw [cdataChainF, cdataChainF]
      cases ht : takeCDATA input with
      | none => rfl
      | some p =>
        obtain ⟨ct, rest⟩ := p
        show (if cdataHeader.isPrefixOf rest then
            match cdataChainF f1 (rest.drop cdataHeader.length) with
            | some (c2, tail) => some (ct ++ c2, tail)
            | none => none
          else some (ct, rest)) =
          (if cdataHeader.isPrefixOf rest then
            match cdataChainF f2 (rest.drop cdataHeader.length) with
            | some (c2, tail) => some (ct ++ c2, tail)
            | none => none
          else some (ct, rest))
        have hlen := takeCDATA_length input ct rest ht
        by_cases hp : cdataHeader.isPrefixOf rest = true
        · rw [if_pos hp, if_pos hp]
          rw [ih f2 (rest.drop cdataHeader.length)
            (by simp only [List.length_drop]; omega)
            (by simp only [List.length_drop]; omega)]
        · rw [if_neg hp, if_neg hp]

theorem cdataChainF_cons (fuel : Nat) (c : Char) (input : List Char)
    (h : (c :: input).take 3 ≠ cdataEnd) :
    cdataChainF (fuel + 1) (c :: input) =
      (cdataChainF (fuel + 1) input).map (fun p => (c :: p.1, p.2)) := by
  rw [cdataChainF, cdataChainF]
  rw [takeCDATA_cons c input h]
  cases ht : takeCDATA input with
  | none => rfl
  | some p =>
    obtain ⟨ct, rest⟩ := p
    show (if cdataHeader.isPrefixOf rest then
        match cdataChainF fuel (rest.drop cdataHeader.length) with
        | some (c2, tail) => some ((c :: ct) ++ c2, tail)
        | none => none
      else some (c :: ct, rest)) =
      Option.map (fun p => (c :: p.1, p.2))
        (if cdataHeader.isPrefixOf rest then
          match cdataChainF fuel (rest.drop cdataHeader.length) with
          | some (c2, tail) => some (ct ++ c2, tail)
          | none => none
        else some (ct, rest))
    by_cases hp : cdataHeader.isPrefixOf rest = true
    · rw [if_pos hp, if_pos hp]
      cases cdataChainF fuel (rest.drop cdataHeader.length) with
      | none => rfl
      | some q => simp
    · rw [if_neg hp, if_neg hp]
      rfl

theorem cdataChainF_term (f : Nat) (t2 : List Char)
    (hpf : cdataHeader.isPrefixOf t2 = false) :
    cdataChainF (f + 1) (']' :: ']' :: '>' :: t2) = some ([], t2) := by
  rw [cdataChainF]
  show (if cdataHeader.isPrefixOf t2 then
      match cdataChainF f (t2.drop cdataHeader.length) with
      | some (c2, tail) => some ([] ++ c2, tail)
      | none => none
    else some (([] : List Char), t2)) = some ([], t2)
  rw [if_neg (by simp [hpf])]

theorem wxr_escape_append_take2 : ∀ (b tail2 : List Char),
    (wxr_cdata_escape b ++ (']' :: ']' :: '>' :: tail2)).take 2 = [']', '>'] →
    b.take 2 = [']', '>'] := by
  intro b tail2 h
  rcases b with _ | ⟨x, b2⟩
  · simp [wxr_cdata_escape] at h
  · by_cases hsh : (x :: b2).take 3 = cdataEnd
    · rcases b2 with _ | ⟨d, _ | ⟨e, r⟩⟩ <;> simp [cdataEnd] at hsh
      obtain ⟨h1, h2, h3⟩ := hsh
      subst h1; subst h2; subst h3
      rw [wxr_escape_term] at h
      simp [cdataSplit] at h
    · rw [wxr_escape_cons x b2 hsh] at h
      rw [List.cons_append] at h
      obtain ⟨hx, h1⟩ :
          x = ']' ∧ (wxr_cdata_escape b2 ++ (']' :: ']' :: '>' :: tail2)).take 1 = ['>'] := by
        simpa using h
      subst hx
      rcases b2 with _ | ⟨y, b3⟩
      · simp [wxr_cdata_escape] at h1
      · by_cases hsh2 : (y :: b3).take 3 = cdataEnd
        · rcases b3 with _ | ⟨d, _ | ⟨e, r⟩⟩ <;> simp [cdataEnd] at hsh2
          obtain ⟨h2, h3, h4⟩ := hsh2
          subst h2; subst h3; subst h4
          rw [wxr_escape_term] at h1
          simp [cdataSplit] at h1
        · rw [wxr_escape_cons y b3 hsh2] at h1
          rw [List.cons_append] at h1
          simp at h1
          subst h1
          rfl

theorem cdataChainF_escape : ∀ (n : Nat) (s tail2 : List Char) (fuel : Nat),
    s.length ≤ n →
    (wxr_cdata_escape s ++ (']' :: ']' :: '>' :: tail2)).length < fuel →
    cdataHeader.isPrefixOf tail2 = false →
    cdataChainF fuel (wxr_cdata_escape s ++ (']' :: ']' :: '>' :: tail2)) =
      some (s, tail2) := by
  intro n
  induction n with
  | zero =>
    intro s tail2 fuel hn hfl hpf
    have hs : s = [] := List.eq_nil_of_length_eq_zero (by omega)
    subst hs
    cases fuel with
    | zero => simp at hfl
    | succ f =>
      show cdataChainF (f + 1) (']' :: ']' :: '>' :: tail2) = some ([], tail2)
      exact cdataChainF_term f tail2 hpf
  | succ n ih =>
    intro s tail2 fuel hn hfl hpf
    rcases s with _ | ⟨c, b⟩
    · cases fuel with
      | zero => simp at hfl
      | succ f =>
        show cdataChainF (f + 1) (']' :: ']' :: '>' :: tail2) = some ([], tail2)
        exact cdataChainF_term f tail2 hpf
    · by_cases hterm : (c :: b).take 3 = cdataEnd
      · rcases b with _ | ⟨d, _ | ⟨e, b3⟩⟩ <;> simp [cdataEnd] at hterm
        obtain ⟨h1, h2, h3⟩ := hterm
        subst h1; subst h2; subst h3
        rw [wxr_escape_term]
        rw [List.append_assoc]
        cases fuel with
        | zero => simp at hfl
        | succ f =>
          rw [show cdataSplit ++ (wxr_cdata_escape b3 ++ (']' :: ']' :: '>' :: tail2)) =
            ']' :: ']' :: (']' :: ']' :: '>' ::
              ('<' :: '!' :: '[' :: 'C' :: 'D' :: 'A' :: 'T' :: 'A' :: '[' ::
                ('>' :: (wxr_cdata_escape b3 ++ (']' :: ']' :: '>' :: tail2))))) from rfl]
          rw [cdataChainF_cons f _ _ (by
            intro hq
            simp [cdataEnd] at hq)]
          rw [cdataChainF_cons f _ _ (by
            intro hq
            simp [cdataEnd] at hq)]
          rw [cdataChainF]
          rw [takeCDATA_term]
          show Option.map _ (Option.map _
            (if cdataHeader.isPrefixOf ('<' :: '!' :: '[' :: 'C' :: 'D' :: 'A' :: 'T' :: 'A' :: '[' ::
                ('>' :: (wxr_cdata_escape b3 ++ (']' :: ']' :: '>' :: tail2)))) then
              match cdataChainF f (('<' :: '!' :: '[' :: 'C' :: 'D' :: 'A' :: 'T' :: 'A' :: '[' ::
                ('>' :: (wxr_cdata_escape b3 ++ (']' :: ']' :: '>' :: tail2)))).drop cdataHeader.length) with
              | some (c2, tail) => some ([] ++ c2, tail)
              | none => none
            else some (([] : List Char), _))) = _
          rw [if_pos (show cdataHeader.isPrefixOf
            ('<' :: '!' :: '[' :: 'C' :: 'D' :: 'A' :: 'T' :: 'A' :: '[' ::
              ('>' :: (wxr_cdata_escape b3 ++ (']' :: ']' :: '>' :: tail2)))) = true from rfl)]
          have e1 : wxr_cdata_escape ('>' :: b3) = '>' :: wxr_cdata_escape b3 :=
            wxr_escape_cons '>' b3 (by
              intro hq
              rw [List.take_succ_cons] at hq
              rw [show cdataEnd = ']' :: [']', '>'] from rfl] at hq
              injection hq with hc hq2
              exact absurd hc (by decide))
          rw [show (('<' :: '!' :: '[' :: 'C' :: 'D' :: 'A' :: 'T' :: 'A' :: '[' ::
              ('>' :: (wxr_cdata_escape b3 ++ (']' :: ']' :: '>' :: tail2)))).drop cdataHeader.length) =
            wxr_cdata_escape ('>' :: b3) ++ (']' :: ']' :: '>' :: tail2) by
            rw [e1]
            rfl]
          rw [ih ('>' :: b3) tail2 f
            (by simp at hn ⊢; omega)
            (by
              have e2 : wxr_cdata_escape (']' :: ']' :: '>' :: b3) =
                  cdataSplit ++ wxr_cdata_escape b3 := wxr_escape_term b3
              rw [e2] at hfl
              rw [e1]
              simp only [cdataSplit, List.length_append, List.length_cons] at hfl ⊢
              omega)
            hpf]
          rfl
      · have hhead : (c :: (wxr_cdata_escape b ++ (']' :: ']' :: '>' :: tail2))).take 3 ≠ cdataEnd := by
          intro hq
          rw [List.take_succ_cons] at hq
          rw [show cdataEnd = ']' :: [']', '>'] from rfl] at hq
          injection hq with hc hq2
          subst hc
          have hb2 := wxr_escape_append_take2 b tail2 hq2
          apply hterm
          rw [List.take_succ_cons, hb2]
          rfl
        rw [wxr_escape_cons c b hterm, List.cons_append]
        cases fuel with
        | zero => simp at hfl
        | succ f =>
          rw [cdataChainF_cons f c _ hhead]
          rw [ih b tail2 (f + 1)
            (by simp at hn; omega)
            (by
              rw [wxr_escape_cons c b hterm, List.cons_append] at hfl
              simp at hfl ⊢
              omega)
            hpf]
          rfl

/-- The characters `<content:encoded><![CDATA[` that `_write_xml_post` emits
before the escaped content. -/
def contentEncodedOpen : List Char := "<content:encoded><![CDATA[".toList

/-- The characters `]]></content:encoded>` that `_write_xml_post` emits after
the escaped content. -/
def contentEncodedClose : List Char := "]]></content:encoded>".toList

/-- Serialization of the `<content:encoded>` element in `_write_xml_post`:
the opening tag and `<![CDATA[`, then the content with Python's
`content.replace(']]>', ']]]]><![CDATA[>')` applied, then `]]>` and the
closing tag. -/
def serialize_content_encoded (s : List Char) : List Char :=
  contentEncodedOpen ++ wxr_cdata_escape s ++ contentEncodedClose

/-- An XML reader for the serialized element: after the literal opening tag
and `<![CDATA[`, read the maximal chain of adjacent CDATA sections and require
the closing tag; the decoded content is the concatenation of the sections. -/
def parse_content_encoded (xml : List Char) : Option (List Char) :=
  if contentEncodedOpen.isPrefixOf xml then
    match cdataChain (xml.drop contentEncodedOpen.length) with
    | some (content, rest) =>
      if rest = "</content:encoded>".toList then some content else none
    | none => none
  else none

/-- C1 (confirmed).  CDATA round-trip safety: for every content string `s`
containing the literal substring `]]>`, serializing `s` into the
`<content:encoded>` element (applying the CDATA-splitting escape that replaces
`]]>` with `]]]]><![CDATA[>`) and then parsing the resulting XML back yields
content equal to the original string `s`.  (The proof in fact goes through for
every `s`; the hypothesis restates the claim's premise.) -/
theorem wxr_cdata_roundtrip (s : List Char) (hs : cdataEnd <:+: s) :
    parse_content_encoded (serialize_content_encoded s) = some s := by
  clear hs
  have hpre : contentEncodedOpen.isPrefixOf
      (contentEncodedOpen ++ (wxr_cdata_escape s ++ contentEncodedClose)) = true :=
    List.isPrefixOf_iff_prefix.mpr (List.prefix_append _ _)
  unfold parse_content_encoded serialize_content_encoded
  rw [List.append_assoc]
  rw [if_pos hpre]
  rw [List.drop_left]
  rw [show wxr_cdata_escape s ++ contentEncodedClose =
      wxr_cdata_escape s ++ (']' :: ']' :: '>' :: ("</content:encoded>".toList)) from rfl]
  rw [cdataChain]
  rw [cdataChainF_escape s.length s ("</content:encoded>".toList) _
    (le_refl _) (Nat.lt_succ_self _) (by decide)]
  show (if ("</content:encoded>".toList = "</content:encoded>".toList) then some s else none) =
    some s
  rw [if_pos rfl]

/-- Witness for C1 at the concrete content `a]]>b`. -/
theorem wxr_cdata_roundtrip_witness :
    (cdataEnd <:+: ("a]]>b".toList)) ∧
      parse_content_encoded (serialize_content_encoded ("a]]>b".toList)) =
        some ("a]]>b".toList) :=
  ⟨by decide, wxr_cdata_roundtrip ("a]]>b".toList) (by decide)⟩

/-! ## Duplicate detection and per-URL result assembly (`extract_blog_data`)

`extract_blog_data` fetches a page, extracts its fields, and applies the
duplicate check guarded by `if content:`.  The fetch layer and the per-field
extractors run before the duplicate logic; here the fetched page's extracted
title and content arrive as the `PageData` argument (`none` models a fetch
failure), and the content hash (`get_content_hash`, a blake2s digest in the
source) is an arbitrary function parameter: every theorem below holds for any
hash function. -/

/-- The status strings used in the result dictionaries. -/
inductive Status where
  | success
  | duplicate
  | failed
deriving DecidableEq, Repr

/-- One result dictionary of `extract_blog_data` (the fields the claims are
about; a `duplicate` or `failed` dictionary carries no content in the source,
modelled as the empty string). -/
structure PostRecord where
  status : Status
  url : List Char
  title : List Char
  content : List Char
  error : Option (List Char)
deriving DecidableEq, Repr

/-- The extracted title and content (`extract_title` / `extract_content`
applied to the fetched document). -/
structure PageData where
  title : List Char
  content : List Char
deriving DecidableEq, Repr

/-- The extractor state touched by `extract_blog_data`: the
`skip_duplicates` flag, the `seen_hashes` set, the `extracted_data` list and
the warnings written through `self._log`. -/
structure BState where
  skip_duplicates : Bool
  seen_hashes : List (List Char)
  extracted_data : List PostRecord
  log : List (List Char)
deriving DecidableEq, Repr

/-- The warning logged in the skip branch of the duplicate check. -/
def warnSkipDup : List Char :=
  "  [WARNING] Duplicate content detected - skipping".toList

/-- The warning logged when a duplicate is included (`skip_duplicates` off). -/
def warnIncludeDup : List Char :=
  "  [WARNING] Duplicate content detected - including anyway".toList

/-- Python `set.add` on the model's list-of-hashes set. -/
def insertHash (h : List Char) (s : List (List Char)) : List (List Char) :=
  if h ∈ s then s else s ++ [h]

/-- Model of `extract_blog_data` (blog_extractor.py, `status`/duplicate
logic): a failed fetch returns a `failed` record; non-empty content is
hashed, a seen hash yields an early `duplicate` return when
`skip_duplicates` is set (no state change other than the warning) or a
warning plus normal success assembly otherwise; empty content skips the
hash check entirely.  Successful records are appended to
`extracted_data`. -/
def extract_blog_data (hashFn : List Char → List Char) (st : BState)
    (url : List Char) (fetched : Option PageData) : PostRecord × BState :=
  match fetched with
  | none =>
    ({ status := Status.failed, url := url, title := [], content := [],
       error := some ("Could not fetch content".toList) }, st)
  | some page =>
    if page.content ≠ [] then
      let h := hashFn page.content
      if h ∈ st.seen_hashes then
        if st.skip_duplicates then
          ({ status := Status.duplicate, url := url, title := page.title,
             content := [], error := some ("Duplicate content".toList) },
           { st with log := st.log ++ [warnSkipDup] })
        else
          let r : PostRecord :=
            { status := Status.success, url := url, title := page.title,
              content := page.content, error := none }
          (r, { st with
                  log := st.log ++ [warnIncludeDup],
                  seen_hashes := insertHash h st.seen_hashes,
                  extracted_data := st.extracted_data ++ [r] })
      else
        let r : PostRecord :=
          { status := Status.success, url := url, title := page.title,
            content := page.content, error := none }
        (r, { st with
                seen_hashes := insertHash h st.seen_hashes,
                extracted_data := st.extracted_data ++ [r] })
    else
      let r : PostRecord :=
        { status := Status.success, url := url, title := page.title,
          content := [], error := none }
      (r, { st with extracted_data := st.extracted_data ++ [r] })

/-- The sequential driver loop (`main` in blog_extractor.py): each URL is
processed with `extract_blog_data` against the shared state. -/
def process_blog_urls (hashFn : List Char → List Char) (st : BState) :
    List (List Char × Option PageData) → List PostRecord × BState
  | [] => ([], st)
  | (url, page) :: rest =>
    let rp := extract_blog_data hashFn st url page
    let rs := process_blog_urls hashFn rp.2 rest
    (rp.1 :: rs.1, rs.2)

/-- A fresh extractor (`__init__`): empty hash set, no results, no log. -/
def freshState (skip : Bool) : BState :=
  { skip_duplicates := skip, seen_hashes := [], extracted_data := [], log := [] }

/-- C2 (confirmed).  Duplicate handling: for two URLs whose extraction yields
byte-identical non-empty content in one run, with the skip policy enabled the
first record has status `success` and the second `duplicate`; with the policy
disabled the second post is included (appended to `extracted_data` with
status `success`) and flagged as a duplicate by the logged warning
`Duplicate content detected - including anyway` (the record itself carries no
extra field; the warning is the flag the source emits). -/
theorem duplicate_run_behavior (hashFn : List Char → List Char)
    (u1 u2 t1 t2 c : List Char) (hc : c ≠ []) :
    ((process_blog_urls hashFn (freshState true)
        [(u1, some ⟨t1, c⟩), (u2, some ⟨t2, c⟩)]).1.map PostRecord.status =
      [Status.success, Status.duplicate]) ∧
    ((process_blog_urls hashFn (freshState false)
        [(u1, some ⟨t1, c⟩), (u2, some ⟨t2, c⟩)]).1.map PostRecord.status =
      [Status.success, Status.success]) ∧
    ((process_blog_urls hashFn (freshState false)
        [(u1, some ⟨t1, c⟩), (u2, some ⟨t2, c⟩)]).2.extracted_data.map PostRecord.url =
      [u1, u2]) ∧
    warnIncludeDup ∈ (process_blog_urls hashFn (freshState false)
        [(u1, some ⟨t1, c⟩), (u2, some ⟨t2, c⟩)]).2.log := by
  have hmem : hashFn c ∈ insertHash (hashFn c) [] := by
    simp [insertHash]
  refine ⟨?_, ?_, ?_, ?_⟩ <;>
    simp [process_blog_urls, extract_blog_data, freshState, hc, hmem, insertHash]

/-- Witness for C2 at concrete inputs. -/
theorem duplicate_run_behavior_witness :
    ("x".toList ≠ ([] : List Char)) ∧
    ((process_blog_urls (fun l => l) (freshState true)
        [("u1".toList, some ⟨"t1".toList, "x".toList⟩),
         ("u2".toList, some ⟨"t2".toList, "x".toList⟩)]).1.map PostRecord.status =
      [Status.success, Status.duplicate]) :=
  ⟨by decide,
   (duplicate_run_behavior (fun l => l) ("u1".toList) ("u2".toList)
     ("t1".toList) ("t2".toList) ("x".toList) (by decide)).1⟩

/-- C9 (confirmed).  Empty content is never a duplicate: a fetched page whose
extracted content is empty is recorded `success` without touching the
seen-hash set, and a whole run of empty-content pages yields only `success`
statuses (never `duplicate`). -/
theorem empty_content_never_duplicate (hashFn : List Char → List Char)
    (st : BState) (url t : List Char) :
    ((extract_blog_data hashFn st url (some ⟨t, []⟩)).1.status = Status.success) ∧
    ((extract_blog_data hashFn st url (some ⟨t, []⟩)).2.seen_hashes = st.seen_hashes) ∧
    (∀ (inputs : List (List Char × Option PageData)),
      (∀ p ∈ inputs, ∃ u2 t2, p = (u2, some ⟨t2, []⟩)) →
      (process_blog_urls hashFn st inputs).1.map PostRecord.status =
        List.replicate inputs.length Status.success) := by
  refine ⟨by simp [extract_blog_data], by simp [extract_blog_data], ?_⟩
  intro inputs
  induction inputs generalizing st with
  | nil => intro _; simp [process_blog_urls]
  | cons p rest ih =>
    intro hall
    obtain ⟨u2, t2, hp⟩ := hall p (by simp)
    subst hp
    simp only [process_blog_urls, List.map_cons, List.length_cons]
    rw [show extract_blog_data hashFn st u2 (some ⟨t2, []⟩) =
      ({ status := Status.success, url := u2, title := t2, content := [], error := none },
       { st with extracted_data := st.extracted_data ++
          [{ status := Status.success, url := u2, title := t2, content := [], error := none }] })
      by simp [extract_blog_data]]
    rw [ih _ (fun q hq => hall q (by simp [hq]))]
    simp [List.replicate]

/-- Witness for C9: a run of two empty-content pages is all `success`. -/
theorem empty_content_never_duplicate_witness :
    (process_blog_urls (fun l => l) (freshState true)
      [("a".toList, some ⟨"p".toList, []⟩), ("b".toList, some ⟨"q".toList, []⟩)]).1.map
        PostRecord.status = List.replicate 2 Status.success :=
  (empty_content_never_duplicate (fun l => l) (freshState true) [] []).2.2
    [("a".toList, some ⟨"p".toList, []⟩), ("b".toList, some ⟨"q".toList, []⟩)]
    (by
      intro p hp
      simp only [List.mem_cons, List.mem_singleton] at hp
      rcases hp with h | h | h
      · exact ⟨"a".toList, "p".toList, h⟩
      · exact ⟨"b".toList, "q".toList, h⟩
      · exact absurd h (by simp))

/-- C6 counterexample: a URL whose fetched page yields no matching content
area (empty extraction result) is recorded with status `success` — not
`failed` as the claim states. -/
theorem no_content_failed_cex :
    ((extract_blog_data (fun l => l) (freshState true)
        ("https://example.com/post".toList) (some ⟨"T".toList, []⟩)).1.status =
      Status.success) ∧
    ((extract_blog_data (fun l => l) (freshState true)
        ("https://example.com/post".toList) (some ⟨"T".toList, []⟩)).1.status ≠
      Status.failed) := by
  constructor <;> simp [extract_blog_data, freshState]

/-- C6 amended: a URL whose fetched page yields no matching content area is
recorded with status `success` and empty content; only a fetch failure is
recorded `failed`, with the reason string `Could not fetch content`. -/
theorem no_content_amended (hashFn : List Char → List Char) (st : BState)
    (url t : List Char) :
    ((extract_blog_data hashFn st url (some ⟨t, []⟩)).1.status = Status.success) ∧
    ((extract_blog_data hashFn st url (some ⟨t, []⟩)).1.content = []) ∧
    ((extract_blog_data hashFn st url none).1.status = Status.failed) ∧
    ((extract_blog_data hashFn st url none).1.error =
      some ("Could not fetch content".toList)) := by
  refine ⟨?_, ?_, ?_, ?_⟩ <;> simp [extract_blog_data]

/-! ## The full `<item>` writer (`_write_xml_post`)

The writer normalizes unicode in title/author/content, absolutizes relative
URLs inside the content (a BeautifulSoup-based helper, abstracted below as the
`absolutize` collaborator), formats the date (`parse_and_format_date`, built
on `dateutil`, abstracted as `parseDate`), derives a post id from Python's
salted `hash` (run-dependent, so a parameter), derives the slug from the URL
path, and emits the element sequence.  Unicode normalization is modelled by
the source's manual replacement table; the preceding NFKD pass is the
identity on the ASCII strings considered in the theorems. -/

/-- One character of `normalize_unicode`'s replacement table. -/
def normalizeUniChar (c : Char) : List Char :=
  if c = '‘' then [Char.ofNat 39]
  else if c = '’' then [Char.ofNat 39]
  else if c = '“' then ['"']
  else if c = '”' then ['"']
  else if c = '—' then ['-', '-']
  else if c = '–' then ['-']
  else if c = '…' then ['.', '.', '.']
  else if c = ' ' then [' ']
  else if c = '•' then ['*']
  else if c = '·' then ['*']
  else if c = 'é' then ['e']
  else if c = 'á' then ['a']
  else if c = 'í' then ['i']
  else if c = 'ó' then ['o']
  else if c = 'ú' then ['u']
  else [c]

/-- `normalize_unicode`: the replacement table applied across the text (the
replacements have disjoint single-character sources whose ASCII outputs are
never re-replaced, so the source's sequential `str.replace` chain equals this
single pass). -/
def normalize_unicode (text : List Char) : List Char :=
  text.flatMap normalizeUniChar

/-- One character of Python's `html.escape` (with `quote=True`). -/
def htmlEscapeChar (c : Char) : List Char :=
  if c = '&' then "&amp;".toList
  else if c = '<' then "&lt;".toList
  else if c = '>' then "&gt;".toList
  else if c = '"' then "&quot;".toList
  else if c = Char.ofNat 39 then "&#x27;".toList
  else [c]

/-- Python's `html.escape` used for `<link>` and `<guid>`. -/
def htmlEscape (l : List Char) : List Char := l.flatMap htmlEscapeChar

/-- Scan forward to the character sequence `://` (the scheme separator used
by `urlparse`); returns the characters after it, or `none`. -/
def afterSchemeSep : List Char → Option (List Char)
  | ':' :: '/' :: '/' :: r => some r
  | _ :: r => afterSchemeSep r
  | [] => none

/-- Take characters until a query or fragment delimiter, as `urlparse` stops
the path at `?` or `#`. -/
def untilQueryFrag (l : List Char) : List Char :=
  l.takeWhile (fun c => c ≠ '?' && c ≠ '#')

/-- The `.path` of `urlparse` for the absolute URLs this tool processes:
everything from the first `/` after the network location, up to any query or
fragment. -/
def urlPath (url : List Char) : List Char :=
  match afterSchemeSep url with
  | some rest => untilQueryFrag (rest.dropWhile (fun c => c ≠ '/'))
  | none => untilQueryFrag url

/-- Python `str.split(sep)` for a single-character separator (keeps empty
pieces, as the source then filters them). -/
def splitOn (sep : Char) : List Char → List (List Char)
  | [] => [[]]
  | c :: r =>
    let rs := splitOn sep r
    if c = sep then [] :: rs
    else
      match rs with
      | [] => [[c]]
      | x :: xs => (c :: x) :: xs

/-- Strip a trailing `.htm`, `.html` or `.php` extension
(`re.sub(r'\.(htm|html|php)$', '', slug, flags=IGNORECASE)`). -/
def stripSlugExt (slug : List Char) : List Char :=
  let ls := pyLower slug
  if (".html".toList).isSuffixOf ls then slug.dropLast.dropLast.dropLast.dropLast.dropLast
  else if (".htm".toList).isSuffixOf ls then slug.dropLast.dropLast.dropLast.dropLast
  else if (".php".toList).isSuffixOf ls then slug.dropLast.dropLast.dropLast.dropLast
  else slug

/-- Slug derivation in `_write_xml_post`: last non-empty path segment, else
the lowercased title with spaces replaced by dashes; extensions stripped. -/
def slugOf (url title : List Char) : List Char :=
  let segs := (splitOn '/' (urlPath url)).filter (fun s => s ≠ [])
  let slug0 :=
    match segs.getLast? with
    | some s => s
    | none => (pyLower title).map (fun c => if c = ' ' then '-' else c)
  stripSlugExt slug0

/-- The `nicename` attribute: lowercased category/tag with spaces dashed. -/
def nicenameOf (cat : List Char) : List Char :=
  (pyLower cat).map (fun c => if c = ' ' then '-' else c)

/-- The two date strings `parse_and_format_date` feeds the writer (its
`dateutil`-based parsing is outside the model; the writer receives the
result). -/
structure DateFormats where
  rfc2822 : List Char
  mysql : List Char
  mysql_gmt : List Char

/-- A post dictionary as consumed by `_write_xml_post` (posts without
images; attachment items are emitted separately in the source and are not
claimed about here). -/
structure Post where
  url : List Char
  title : List Char
  author : List Char
  content : List Char
  date : List Char
  categories : List (List Char)
  tags : List (List Char)

/-- One `<category .../>` line of the writer. -/
def categoryLine (domain : List Char) (cat : List Char) : List Char :=
  "<category domain=\"".toList ++ domain ++ "\" nicename=\"".toList ++
    nicenameOf (normalize_unicode cat) ++ "\"><![CDATA[".toList ++
    normalize_unicode cat ++ "]]></category>\n".toList

/-- `_write_xml_post`: the concatenation of every `f.write` call for one
post.  `absolutize` stands for `_convert_relative_urls_to_absolute` (a
BeautifulSoup rewrite of relative link/image URLs inside the content),
`parseDate` for `parse_and_format_date`, and `postId` for
`abs(hash(post['url']) % 1000000) + 1` (Python's salted, run-dependent
string hash). -/
def write_xml_post (absolutize : List Char → List Char → List Char)
    (parseDate : List Char → DateFormats) (postId : Nat) (post : Post) :
    List Char :=
  let title := normalize_unicode post.title
  let author := normalize_unicode post.author
  let content := absolutize (normalize_unicode post.content) post.url
  let dateFormats := parseDate post.date
  "<item>\n".toList ++
  "<title><![CDATA[".toList ++ title ++ "]]></title>\n".toList ++
  "<link>".toList ++ htmlEscape post.url ++ "</link>\n".toList ++
  "<pubDate>".toList ++ dateFormats.rfc2822 ++ "</pubDate>\n".toList ++
  "<dc:creator><![CDATA[".toList ++ author ++ "]]></dc:creator>\n".toList ++
  "<guid isPermaLink=\"false\">".toList ++ htmlEscape post.url ++ "</guid>\n".toList ++
  "<description></description>\n".toList ++
  "<content:encoded><![CDATA[".toList ++ wxr_cdata_escape content ++
    "]]></content:encoded>\n".toList ++
  "<excerpt:encoded><![CDATA[]]></excerpt:encoded>\n".toList ++
  "<wp:post_id>".toList ++ (toString postId).toList ++ "</wp:post_id>\n".toList ++
  "<wp:post_date><![CDATA[".toList ++ dateFormats.mysql ++ "]]></wp:post_date>\n".toList ++
  "<wp:post_date_gmt><![CDATA[".toList ++ dateFormats.mysql_gmt ++
    "]]></wp:post_date_gmt>\n".toList ++
  "<wp:comment_status><![CDATA[open]]></wp:comment_status>\n".toList ++
  "<wp:ping_status><![CDATA[open]]></wp:ping_status>\n".toList ++
  "<wp:post_name><![CDATA[".toList ++ slugOf post.url title ++
    "]]></wp:post_name>\n".toList ++
  "<wp:status><![CDATA[publish]]></wp:status>\n".toList ++
  "<wp:post_parent>0</wp:post_parent>\n".toList ++
  "<wp:menu_order>0</wp:menu_order>\n".toList ++
  "<wp:post_type><![CDATA[post]]></wp:post_type>\n".toList ++
  "<wp:post_password><![CDATA[]]></wp:post_password>\n".toList ++
  "<wp:is_sticky>0</wp:is_sticky>\n".toList ++
  (post.categories.flatMap (categoryLine ("category".toList))) ++
  (post.tags.flatMap (categoryLine ("post_tag".toList))) ++
  "</item>\n".toList

/-- The concrete post exercising C10: `]]>` inside title, author and
content. -/
def cexPost : Post :=
  { url := "https://example.com/blog/my-post/".toList
    title := "A]]>B".toList
    author := "C]]>D".toList
    content := "He]]>llo".toList
    date := "2024-01-02".toList
    categories := []
    tags := [] }

/-- The serialized item for `cexPost` with the collaborators instantiated:
no relative URLs to absolutize, fixed date strings, post id 1. -/
def cexItem : List Char :=
  write_xml_post (fun c _ => c)
    (fun _ => { rfc2822 := "Tue, 02 Jan 2024 00:00:00 +0000".toList
                mysql := "2024-01-02 00:00:00".toList
                mysql_gmt := "2024-01-02 00:00:00".toList })
    1 cexPost

set_option maxRecDepth 4096 in
/-- C10 (confirmed).  The `]]>`-splitting escape is applied only to the
content field: in the serialized item of a post whose title, author and
content each contain `]]>`, the title and author CDATA sections contain the
unsplit `]]>` verbatim, while the content CDATA section carries the split
form. -/
theorem cdata_escape_content_only :
    containsSub ("<title><![CDATA[A]]>B]]></title>".toList) cexItem = true ∧
    containsSub ("<dc:creator><![CDATA[C]]>D]]></dc:creator>".toList) cexItem = true ∧
    containsSub
      ("<content:encoded><![CDATA[He]]]]><![CDATA[>llo]]></content:encoded>".toList)
      cexItem = true ∧
    containsSub ("<![CDATA[He]]>llo]]>".toList) cexItem = false := by
  refine ⟨?_, ?_, ?_, ?_⟩ <;> decide

/-! ## Selector resolver (`extract_categories`, `extract_tags`,
`extract_title`, `extract_author`, `extract_date`)

The CSS engine is abstracted: a `Doc` carries, for each selector the source
queries, the text (or attribute value) that query would produce on the parsed
page — `none`/`[]` when nothing matches.  The extractors below then mirror
the source's control flow over those results.  Python's `set` has no
specified order; `list(set)` is modelled as order-normalized deduplication
(`List.dedup`), which the claims — all order-insensitive — do not observe. -/

/-- Per-selector query results for one parsed document. -/
structure Doc where
  /-- texts of `a[rel="category tag"]` links inside `div.meta-below-content`
  (`none` = that div is absent). -/
  metaBelowContent : Option (List (List Char)) := none
  /-- texts of `div.blog__entry__content__categories a` inside
  `div.blog__entry` (`none` = no `div.blog__entry`). -/
  blogEntryCats : Option (List (List Char)) := none
  /-- texts of `a` links inside `div.categories` (`none` = div absent). -/
  categoriesDiv : Option (List (List Char)) := none
  /-- texts of all `a[rel="category tag"]` links in the document. -/
  relCategoryTagLinks : List (List Char) := []
  /-- texts matched by the two Wix category selectors, in document order. -/
  wixCats : List (List Char) := []
  /-- the `content` attribute of `meta[name="article:section"]`. -/
  articleSection : Option (List Char) := none
  /-- texts matched by the seven tag selectors, concatenated in order. -/
  tagSelTexts : List (List Char) := []
  /-- per-candidate `select_one` results for the title selectors (text, or
  `content` for the meta candidate), in the source's order. -/
  titleMatches : List (Option (List Char)) := []
  /-- text of the DealerOn author link inside
  `span.blog__entry__content__author`. -/
  authorContainerLink : Option (List Char) := none
  /-- per-candidate results for the standard author selectors. -/
  authorMatches : List (Option (List Char)) := []
  /-- text of `div.meta-below-title span.updated` (DealerInspire). -/
  dealerInspireDate : Option (List Char) := none
  /-- texts of the DealerOn `span.blog__entry__content__author` date spans. -/
  dealerOnDateSpans : List (List Char) := []
  /-- texts of the Webflow `div.text-date-blog-post` elements. -/
  webflowDates : List (List Char) := []
  /-- per-candidate `date_str` values for the standard date selectors
  (meta `content`, `datetime`/`title` attribute, or stripped text). -/
  dateMatches : List (Option (List Char)) := []

/-- Build the category/tag set from raw link texts: strip, drop empties,
deduplicate (the Python `set`). -/
def collectTexts (ls : List (List Char)) : List (List Char) :=
  ((ls.map pyStrip).filter (fun t => t ≠ [])).dedup

/-- Python `set.add` of a stripped string. -/
def addToSet (base : List (List Char)) (c : List Char) : List (List Char) :=
  if c ∈ base then base else base ++ [c]

/-- The navigational/boilerplate stop list for categories. -/
def excludeTermsCats : List (List Char) :=
  ["uncategorized".toList, "blog".toList, "all posts".toList, "home".toList,
   "about".toList, "contact".toList, "dealer".toList, "dealership".toList,
   "inventory".toList, "service".toList, "parts".toList, "hours".toList,
   "location".toList, "directions".toList, "finance".toList, "specials".toList,
   "reviews".toList, "privacy".toList, "sitemap".toList, "careers".toList,
   "testimonials".toList, "team".toList, "new inventory".toList,
   "used inventory".toList, "schedule service".toList, "financing".toList,
   "honda".toList, "roanoke".toList, "priority".toList]

/-- The stop list for tags. -/
def excludeTermsTags : List (List Char) :=
  ["dealer".toList, "dealership".toList, "inventory".toList, "home".toList,
   "about".toList, "contact".toList]

/-- The acceptance test of the Wix/meta category path: no stop term occurs in
the lowercased entry, at most 3 words, and no `http`. -/
def categoryFilterOk (cat : List Char) : Bool :=
  !(excludeTermsCats.any (fun t => containsSub t (pyLower cat))) &&
    wordCount cat ≤ 3 && !(containsSub ("http".toList) (pyLower cat))

/-- The acceptance test of the tag path: no stop term, at most 5 words. -/
def tagFilterOk (t : List Char) : Bool :=
  !(excludeTermsTags.any (fun e => containsSub e (pyLower t))) && wordCount t ≤ 5

/-- The final, accumulate-and-filter path of `extract_categories`: the Wix
selectors plus `meta[name="article:section"]`, then the stop-list/word-cap
filter. -/
def extractCategoriesWix (doc : Doc) : List (List Char) :=
  let base := collectTexts doc.wixCats
  let withMeta :=
    match doc.articleSection with
    | some m => let c := pyStrip m; if c ≠ [] then addToSet base c else base
    | none => base
  withMeta.filter categoryFilterOk

/-- Fourth branch: all `a[rel="category tag"]` links document-wide; returns
the (unfiltered) set when non-empty, otherwise falls through to the Wix
path. -/
def extractCategoriesB4 (doc : Doc) : List (List Char) :=
  if doc.relCategoryTagLinks ≠ [] then
    let cats := collectTexts doc.relCategoryTagLinks
    if cats ≠ [] then cats else extractCategoriesWix doc
  else extractCategoriesWix doc

/-- Third branch: `div.categories` links (unfiltered early return). -/
def extractCategoriesB3 (doc : Doc) : List (List Char) :=
  match doc.categoriesDiv with
  | some links => if links ≠ [] then collectTexts links else extractCategoriesB4 doc
  | none => extractCategoriesB4 doc

/-- Second branch: the DealerOn blog-entry category links (unfiltered early
return). -/
def extractCategoriesB2 (doc : Doc) : List (List Char) :=
  match doc.blogEntryCats with
  | some links => if links ≠ [] then collectTexts links else extractCategoriesB3 doc
  | none => extractCategoriesB3 doc

/-- `extract_categories`: the DealerInspire `div.meta-below-content` branch,
then the DealerOn, `div.categories` and `rel="category tag"` branches — each
an early return without the stop-list filter — and finally the filtered
Wix/meta accumulation path. -/
def extract_categories (doc : Doc) : List (List Char) :=
  match doc.metaBelowContent with
  | some links => if links ≠ [] then collectTexts links else extractCategoriesB2 doc
  | none => extractCategoriesB2 doc

/-- `extract_tags`: accumulate the texts of all seven selectors into a set,
then filter by the tag stop list and the five-word cap. -/
def extract_tags (doc : Doc) : List (List Char) :=
  (collectTexts doc.tagSelTexts).filter tagFilterOk

/-- A document whose only category signal is a DealerInspire
`div.meta-below-content` block with a single `a[rel="category tag"]` link
reading `Dealer News`. -/
def cexDocC5 : Doc :=
  { metaBelowContent := some ["Dealer News".toList]
    relCategoryTagLinks := ["Dealer News".toList] }

/-- C5 counterexample: the DealerInspire branch of `extract_categories`
returns its matches unfiltered, so the returned category `Dealer News`
contains the stop-list term `dealer` (and indeed fails the filter the final
path would have applied). -/
theorem categories_stoplist_cex :
    extract_categories cexDocC5 = ["Dealer News".toList] ∧
    containsSub ("dealer".toList) (pyLower ("Dealer News".toList)) = true ∧
    categoryFilterOk ("Dealer News".toList) = false := by
  refine ⟨?_, ?_, ?_⟩ <;> decide

/-- C5 amended: tags accumulate matches from all selectors and every
returned tag passes the stop list and the five-word cap; for categories only
the final Wix/`article:section` accumulation path filters (stop list,
three-word cap, no `http`) — the four platform-specific category branches
are first-match-wins early returns that bypass the filter, so the guarantee
for categories holds on documents where those branches do not fire. -/
theorem selector_set_fields_amended :
    (∀ (doc : Doc) (t : List Char), t ∈ extract_tags doc →
      (∀ e ∈ excludeTermsTags, containsSub e (pyLower t) = false) ∧
        wordCount t ≤ 5) ∧
    (∀ (doc : Doc), doc.metaBelowContent = none → doc.blogEntryCats = none →
      doc.categoriesDiv = none → doc.relCategoryTagLinks = [] →
      ∀ cat ∈ extract_categories doc,
        (∀ e ∈ excludeTermsCats, containsSub e (pyLower cat) = false) ∧
          wordCount cat ≤ 3 ∧
          containsSub ("http".toList) (pyLower cat) = false) := by
  constructor
  · intro doc t ht
    have hf := (List.mem_filter.mp ht).2
    simp only [tagFilterOk, Bool.and_eq_true, Bool.not_eq_true',
      List.any_eq_false, decide_eq_true_eq] at hf
    exact ⟨fun e he => Bool.not_eq_true _ ▸ by simpa using hf.1 e he, hf.2⟩
  · intro doc h1 h2 h3 h4 cat hcat
    rw [extract_categories, h1, extractCategoriesB2, h2, extractCategoriesB3, h3,
      extractCategoriesB4] at hcat
    rw [if_neg (by simp [h4])] at hcat
    rw [extractCategoriesWix] at hcat
    have hf := (List.mem_filter.mp hcat).2
    simp only [categoryFilterOk, Bool.and_eq_true, Bool.not_eq_true',
      List.any_eq_false, decide_eq_true_eq] at hf
    exact ⟨fun e he => Bool.not_eq_true _ ▸ by simpa using hf.1.1 e he, hf.1.2, hf.2⟩

/-- Witness for the amended C5 at a concrete document carrying one tag and
one Wix category. -/
theorem selector_set_fields_amended_witness :
    (("Autumn Drives".toList ∈ extract_tags
        { tagSelTexts := ["Autumn Drives".toList],
          wixCats := ["Road Trips".toList] }) ∧
      (∀ e ∈ excludeTermsTags,
        containsSub e (pyLower ("Autumn Drives".toList)) = false) ∧
      wordCount ("Autumn Drives".toList) ≤ 5) ∧
    ("Road Trips".toList ∈ extract_categories
        { tagSelTexts := ["Autumn Drives".toList],
          wixCats := ["Road Trips".toList] } ∧
      (∀ e ∈ excludeTermsCats,
        containsSub e (pyLower ("Road Trips".toList)) = false) ∧
      wordCount ("Road Trips".toList) ≤ 3 ∧
      containsSub ("http".toList) (pyLower ("Road Trips".toList)) = false) :=
  ⟨⟨by decide,
    selector_set_fields_amended.1
      { tagSelTexts := ["Autumn Drives".toList], wixCats := ["Road Trips".toList] }
      ("Autumn Drives".toList) (by decide)⟩,
   ⟨by decide,
    selector_set_fields_amended.2
      { tagSelTexts := ["Autumn Drives".toList], wixCats := ["Road Trips".toList] }
      rfl rfl rfl rfl ("Road Trips".toList) (by decide)⟩⟩

/-! ## Scalar fields: title, author, date -/

/-- First candidate whose stripped text is non-empty (the scalar selector
loop: `if title: return title`). -/
def firstNonemptyStripped : List (Option (List Char)) → Option (List Char)
  | [] => none
  | none :: rest => firstNonemptyStripped rest
  | some t :: rest =>
    let s := pyStrip t
    if s ≠ [] then some s else firstNonemptyStripped rest

/-- First candidate whose value is non-empty, taken verbatim (the date
selector loop returns `date_str` without a further strip). -/
def firstNonempty : List (Option (List Char)) → Option (List Char)
  | [] => none
  | none :: rest => firstNonempty rest
  | some t :: rest => if t ≠ [] then some t else firstNonempty rest

/-- `extract_title`: first non-empty stripped candidate, else the sentinel
`Untitled Post`. -/
def extract_title (doc : Doc) : List Char :=
  (firstNonemptyStripped doc.titleMatches).getD ("Untitled Post".toList)

/-- `extract_author`: the DealerOn author-container link first, then the
standard candidates, else the sentinel `Unknown Author`. -/
def extract_author (doc : Doc) : List Char :=
  match doc.authorContainerLink with
  | some t =>
    let s := pyStrip t
    if s ≠ [] then s
    else (firstNonemptyStripped doc.authorMatches).getD ("Unknown Author".toList)
  | none => (firstNonemptyStripped doc.authorMatches).getD ("Unknown Author".toList)

/-- ASCII digit test (`\d` over the strings this code sees). -/
def isDigitChar (c : Char) : Bool := '0' ≤ c && c ≤ '9'

/-- ASCII letter test (`[a-zA-Z]`). -/
def isAlphaChar (c : Char) : Bool :=
  ('a' ≤ c && c ≤ 'z') || ('A' ≤ c && c ≤ 'Z')

/-- The DealerOn date-span scan: first span whose stripped text contains a
digit, does not start with `by`, is not `/`, and does not mention
`blog entries`. -/
def dealerOnPick : List (List Char) → Option (List Char)
  | [] => none
  | s :: rest =>
    let text := pyStrip s
    if (text.any isDigitChar && !(("by".toList).isPrefixOf text)) &&
        (text ≠ [] && text ≠ ['/'] &&
          !(containsSub ("blog entries".toList) (pyLower text))) then
      some text
    else dealerOnPick rest

/-- The Webflow date scan: first element whose stripped text is non-empty and
longer than three characters. -/
def webflowPick : List (List Char) → Option (List Char)
  | [] => none
  | s :: rest =>
    let text := pyStrip s
    if text ≠ [] && text.length > 3 then some text else webflowPick rest

/-- Match `\d{1,2}` followed by a literal `/` (greedy, as the regex), giving
the digits and the remainder after the slash. -/
def matchDigits12Slash : List Char → Option (List Char × List Char)
  | a :: b :: c :: rest =>
    if isDigitChar a && isDigitChar b && c = '/' then some ([a, b], rest)
    else if isDigitChar a && b = '/' then some ([a], c :: rest)
    else none
  | [a, b] => if isDigitChar a && b = '/' then some ([a], []) else none
  | _ => none

/-- Match the month alternative `([a-zA-Z]+|\d{1,2})` followed by `/`. -/
def matchMonth (l : List Char) : Option (List Char × List Char) :=
  let run := l.takeWhile isAlphaChar
  if run.isEmpty then matchDigits12Slash l
  else
    match l.drop run.length with
    | '/' :: rest => some (run, rest)
    | _ => none

/-- Try the URL date pattern `/(\d{4})/([a-zA-Z]+|\d{1,2})/(\d{1,2})/` at one
position. -/
def matchDateAt : List Char → Option (List Char × List Char × List Char)
  | '/' :: d1 :: d2 :: d3 :: d4 :: '/' :: rest =>
    if isDigitChar d1 && isDigitChar d2 && isDigitChar d3 && isDigitChar d4 then
      match matchMonth rest with
      | some (mo, rest2) =>
        match matchDigits12Slash rest2 with
        | some (dy, _) => some ([d1, d2, d3, d4], mo, dy)
        | none => none
      | none => none
    else none
  | _ => none

/-- `re.search`: the leftmost position where the date pattern matches. -/
def urlDateSearch : List Char → Option (List Char × List Char × List Char)
  | [] => none
  | c :: r =>
    match matchDateAt (c :: r) with
    | some x => some x
    | none => urlDateSearch r

/-- Month-name table of the URL fallback. -/
def monthMap : List (List Char × List Char) :=
  [("january".toList, "01".toList), ("february".toList, "02".toList),
   ("march".toList, "03".toList), ("april".toList, "04".toList),
   ("may".toList, "05".toList), ("june".toList, "06".toList),
   ("july".toList, "07".toList), ("august".toList, "08".toList),
   ("september".toList, "09".toList), ("october".toList, "10".toList),
   ("november".toList, "11".toList), ("december".toList, "12".toList)]

/-- Replace a month name by its number when the lowercased name is in the
table, else leave it unchanged. -/
def monthMapApply (m : List Char) : List Char :=
  match monthMap.lookup (pyLower m) with
  | some n => n
  | none => m

/-- Python `str.zfill(2)`. -/
def zfill2 (l : List Char) : List Char :=
  if l.length ≥ 2 then l else List.replicate (2 - l.length) '0' ++ l

/-- Numeric value of a digit string. -/
def digitsToNat (l : List Char) : Nat :=
  l.foldl (fun n c => n * 10 + (c.toNat - 48)) 0

/-- Gregorian leap year, as `datetime` uses. -/
def leapYear (y : Nat) : Bool := (y % 4 = 0 && y % 100 ≠ 0) || y % 400 = 0

/-- Days in a month, as `datetime.strptime` validates. -/
def daysInMonth (y m : Nat) : Nat :=
  if m = 2 then (if leapYear y then 29 else 28)
  else if m = 4 ∨ m = 6 ∨ m = 9 ∨ m = 11 then 30
  else 31

/-- The `datetime.strptime('%Y-%m-%d')` validity check on the zero-filled
components. -/
def validYMD (y m d : Nat) : Bool :=
  (1 ≤ y && y ≤ 9999) && (1 ≤ m && m ≤ 12) && (1 ≤ d && d ≤ daysInMonth y m)

/-- The URL date fallback of `extract_date`: leftmost pattern match, month
name mapped, formatted `YYYY-MM-DD` and validated via `strptime`; `none` when
no match or the candidate is not a real date. -/
def urlDateFallback (url : List Char) : Option (List Char) :=
  match urlDateSearch url with
  | none => none
  | some (y, mo, dy) =>
    let mo2 := monthMapApply mo
    if mo2.all isDigitChar &&
        validYMD (digitsToNat y) (digitsToNat mo2) (digitsToNat dy) then
      some (y ++ ['-'] ++ zfill2 mo2 ++ ['-'] ++ zfill2 dy)
    else none

/-- `extract_date`: DealerInspire span, DealerOn spans, Webflow divs, the
standard selector list, the URL pattern, and finally the current date
(`datetime.now().strftime('%Y-%m-%d')`, supplied as `now`). -/
def extractDateRest (doc : Doc) (url : List Char) (now : List Char) : List Char :=
  match dealerOnPick doc.dealerOnDateSpans with
  | some t => t
  | none =>
    match webflowPick doc.webflowDates with
    | some t => t
    | none =>
      match firstNonempty doc.dateMatches with
      | some t => t
      | none =>
        match urlDateFallback url with
        | some t => t
        | none => now

/-- The DealerInspire pre-check of `extract_date`, falling through to
`extractDateRest`. -/
def extract_date (doc : Doc) (url : List Char) (now : List Char) : List Char :=
  match doc.dealerInspireDate with
  | some t =>
    let s := pyStrip t
    if s ≠ [] then s else extractDateRest doc url now
  | none => extractDateRest doc url now

/-- No scalar candidate matched: every `select_one` result is absent or
strips to the empty string. -/
def noScalarMatch (l : List (Option (List Char))) : Bool :=
  l.all (fun o => match o with | none => true | some s => pyStrip s == [])

/-- No date candidate produced a non-empty `date_str` (taken verbatim). -/
def noRawMatch (l : List (Option (List Char))) : Bool :=
  l.all (fun o => match o with | none => true | some s => s == [])

theorem firstNonemptyStripped_none : ∀ (l : List (Option (List Char))),
    noScalarMatch l = true → firstNonemptyStripped l = none := by
  intro l
  induction l with
  | nil => intro _; rfl
  | cons o rest ih =>
    intro h
    simp only [noScalarMatch, List.all_cons, Bool.and_eq_true] at h
    cases o with
    | none =>
      rw [firstNonemptyStripped]
      exact ih h.2
    | some s =>
      rw [firstNonemptyStripped]
      have hs : pyStrip s = [] := by simpa using h.1
      rw [if_neg (by simp [hs])]
      exact ih h.2

theorem firstNonempty_none : ∀ (l : List (Option (List Char))),
    noRawMatch l = true → firstNonempty l = none := by
  intro l
  induction l with
  | nil => intro _; rfl
  | cons o rest ih =>
    intro h
    simp only [noRawMatch, List.all_cons, Bool.and_eq_true] at h
    cases o with
    | none =>
      rw [firstNonempty]
      exact ih h.2
    | some s =>
      rw [firstNonempty]
      have hs : s = [] := by simpa using h.1
      rw [if_neg (by simp [hs])]
      exact ih h.2

/-- A fetched page is never recorded `failed` whatever its fields — the
`failed` status exists only on the fetch-failure path. -/
theorem fetched_status_ne_failed (hashFn : List Char → List Char) (st : BState)
    (url : List Char) (page : PageData) :
    (extract_blog_data hashFn st url (some page)).1.status ≠ Status.failed := by
  rw [extract_blog_data]
  by_cases hc : page.content ≠ []
  · rw [if_pos hc]
    by_cases hm : hashFn page.content ∈ st.seen_hashes
    · rw [if_pos hm]
      by_cases hk : st.skip_duplicates
      · rw [if_pos hk]; simp
      · rw [if_neg hk]; simp
    · rw [if_neg hm]; simp
  · rw [if_neg hc]; simp

/-- C8 counterexample: a document with no matching scalar candidates but a
URL carrying a `/2019/07/17/` date pattern — date extraction returns the
URL-derived date, not the current date. -/
theorem scalar_sentinel_cex :
    extract_title {} = "Untitled Post".toList ∧
    extract_author {} = "Unknown Author".toList ∧
    extract_date {} ("https://x.com/2019/07/17/my-post/".toList)
      ("2026-10-12".toList) = "2019-07-17".toList ∧
    ("2019-07-17".toList : List Char) ≠ "2026-10-12".toList := by
  refine ⟨?_, ?_, ?_, ?_⟩ <;> decide

/-- C8 amended: when no candidate selector matches, title and author return
their fixed sentinels; date returns the current date provided the URL also
carries no `/year/month/day/` pattern (otherwise the URL-derived date is
returned); and the extraction as a whole still does not fail. -/
theorem scalar_sentinel_fallbacks (doc : Doc) (url now : List Char)
    (h1 : noScalarMatch doc.titleMatches = true)
    (h2 : doc.authorContainerLink = none)
    (h3 : noScalarMatch doc.authorMatches = true)
    (h4 : doc.dealerInspireDate = none)
    (h5 : doc.dealerOnDateSpans = [])
    (h6 : doc.webflowDates = [])
    (h7 : noRawMatch doc.dateMatches = true)
    (h8 : urlDateFallback url = none) :
    extract_title doc = "Untitled Post".toList ∧
    extract_author doc = "Unknown Author".toList ∧
    extract_date doc url now = now ∧
    (∀ (hashFn : List Char → List Char) (st : BState) (page : PageData),
      (extract_blog_data hashFn st url (some page)).1.status ≠ Status.failed) := by
  refine ⟨?_, ?_, ?_, ?_⟩
  · rw [extract_title, firstNonemptyStripped_none _ h1]
    rfl
  · rw [extract_author, h2, firstNonemptyStripped_none _ h3]
    rfl
  · rw [extract_date, h4, extractDateRest, h5, h6]
    show (match webflowPick [] with
      | some t => t
      | none =>
        match firstNonempty doc.dateMatches with
        | some t => t
        | none => match urlDateFallback url with | some t => t | none => now) = now
    rw [firstNonempty_none _ h7]
    show (match urlDateFallback url with | some t => t | none => now) = now
    rw [h8]
  · intro hashFn st page
    exact fetched_status_ne_failed hashFn st url page

/-- Witness for the amended C8 at a concrete empty document and a URL with
no date pattern. -/
theorem scalar_sentinel_fallbacks_witness :
    extract_title {} = "Untitled Post".toList ∧
    extract_author {} = "Unknown Author".toList ∧
    extract_date {} ("https://example.com/about".toList) ("2026-10-12".toList) =
      "2026-10-12".toList ∧
    (∀ (hashFn : List Char → List Char) (st : BState) (page : PageData),
      (extract_blog_data hashFn st ("https://example.com/about".toList)
        (some page)).1.status ≠ Status.failed) :=
  scalar_sentinel_fallbacks {} ("https://example.com/about".toList)
    ("2026-10-12".toList) (by decide) rfl (by decide) rfl rfl rfl (by decide)
    (by decide)

/-! ## The parsed HTML tree and the tree phase of `clean_html`

BeautifulSoup's node tree is the nested inductive `HNode`; the in-place
mutations of `clean_html` become pure tree transforms, one per source step,
composed in the source's order.  The model fixes `include_images = True`
(the constructor default), so the `if not self.include_images` image-removal
step is a no-op and is omitted, while the image allow-listing and hoisting
steps are active.  Where the source iterates a `find_all` snapshot while
mutating, the transforms below are the equivalent recursive traversal, as
noted at each definition. -/

/-- A BeautifulSoup node: text (`NavigableString`), comment, or element with
its attribute list (bs4 keeps attribute insertion order) and children. -/
inductive HNode where
  | text : List Char → HNode
  | comment : List Char → HNode
  | elem : List Char → List (List Char × List Char) → List HNode → HNode

/-- Attribute lookup (`tag.get`). -/
def getAttr (a : List (List Char × List Char)) (k : List Char) : Option (List Char) :=
  a.lookup k

/-- Attribute assignment (`tag[k] = v`): replace in place, else append. -/
def setAttr (a : List (List Char × List Char)) (k v : List Char) :
    List (List Char × List Char) :=
  if (a.lookup k).isSome then a.map (fun p => if p.1 = k then (k, v) else p)
  else a ++ [(k, v)]

/-- Attribute deletion (`del tag[k]`). -/
def delAttr (a : List (List Char × List Char)) (k : List Char) :
    List (List Char × List Char) :=
  a.filter (fun p => p.1 ≠ k)

/-- Add an attribute only when absent (`if k not in link.attrs`). -/
def addIfAbsent (a : List (List Char × List Char)) (k v : List Char) :
    List (List Char × List Char) :=
  if (a.lookup k).isSome then a else a ++ [(k, v)]

/-- bs4 splits the multi-valued `class` attribute on whitespace. -/
def splitClasses (v : List Char) : List (List Char) :=
  (splitOn ' ' v).filter (fun s => s ≠ [])

/-- Does a class list mark a call-to-action button
(`'btn' in cls.lower() or 'button' in cls.lower()`)? -/
def isButtonClass (v : List Char) : Bool :=
  (splitClasses v).any (fun cls =>
    containsSub ("btn".toList) (pyLower cls) ||
      containsSub ("button".toList) (pyLower cls))

/-- The attribute rewrite applied to a recognized button link: mark it,
standardize its class, and fill in the missing `data-dotagging-*`
attributes (in the source's order). -/
def buttonAttrs (a : List (List Char × List Char)) :
    List (List Char × List Char) :=
  let a1 := setAttr a ("data-is-button".toList) ("true".toList)
  let a2 := setAttr a1 ("class".toList) ("btn btn-cta".toList)
  let href := (getAttr a2 ("href".toList)).getD []
  let a3 := addIfAbsent a2 ("data-dotagging-link-url".toList) href
  let a4 := addIfAbsent a3 ("data-dotagging-event".toList) ("cta_interaction".toList)
  let a5 := addIfAbsent a4 ("data-dotagging-product-name".toList)
    ("Website|Custom Content".toList)
  let a6 := addIfAbsent a5 ("data-dotagging-event-action-result".toList)
    ("open".toList)
  let a7 := addIfAbsent a6 ("data-dotagging-element-type".toList) ("body".toList)
  let a8 := addIfAbsent a7 ("data-dotagging-element-order".toList) ("0".toList)
  addIfAbsent a8 ("data-dotagging-element-subtype".toList) ("cta_button".toList)

mutual
/-- Step: remove all HTML comments (`comment.extract()`). -/
def rcNode : HNode → List HNode
  | .text s => [.text s]
  | .comment _ => []
  | .elem n a cs => [.elem n a (rcNodes cs)]

def rcNodes : List HNode → List HNode
  | [] => []
  | c :: cs => rcNode c ++ rcNodes cs
end

mutual
/-- Step: mark button links (`a` with a `btn`/`button` class) and normalize
their attributes. -/
def mbNode : HNode → HNode
  | .text s => .text s
  | .comment s => .comment s
  | .elem n a cs =>
    if n = "a".toList &&
        (match getAttr a ("class".toList) with
         | some v => isButtonClass v
         | none => false) then
      .elem n (buttonAttrs a) (mbNodes cs)
    else .elem n a (mbNodes cs)

def mbNodes : List HNode → List HNode
  | [] => []
  | c :: cs => mbNode c :: mbNodes cs
end

mutual
/-- Step: replace every `<br>` with a single space
(`br.replace_with(' ')`; the replacement discards the node's subtree, which
is empty for parser-produced void `br` elements). -/
def brNode : HNode → HNode
  | .text s => .text s
  | .comment s => .comment s
  | .elem n a cs =>
    if n = "br".toList then .text [' ']
    else .elem n a (brNodes cs)

def brNodes : List HNode → List HNode
  | [] => []
  | c :: cs => brNode c :: brNodes cs
end

/-- The lazy-loading attributes deleted from a fixed Wix image. -/
def lazyAttrs : List (List Char) :=
  ["data-pin-media".toList, "data-load-done".toList, "data-ssr-src-done".toList,
   "data-pin-url".toList]

mutual
/-- Step: fix Wix lazy-loaded images — promote `data-pin-media` to `src`
and delete the lazy-loading attributes (active because
`include_images = True`). -/
def liNode : HNode → HNode
  | .text s => .text s
  | .comment s => .comment s
  | .elem n a cs =>
    if n = "img".toList then
      match getAttr a ("data-pin-media".toList) with
      | some v =>
        .elem n (lazyAttrs.foldl delAttr (setAttr a ("src".toList) v)) (liNodes cs)
      | none => .elem n a (liNodes cs)
    else .elem n a (liNodes cs)

def liNodes : List HNode → List HNode
  | [] => []
  | c :: cs => liNode c :: liNodes cs
end

/-- The decorative wrapper tags removed (children kept) before the
allow-list pass. -/
def unwrapSet : List (List Char) :=
  ["div".toList, "span".toList, "section".toList, "article".toList,
   "header".toList, "footer".toList, "nav".toList]

mutual
/-- Does the forest contain visible text (`tag.get_text(strip=True)`
non-empty)? -/
def hvNode : HNode → Bool
  | .text s => pyStrip s ≠ []
  | .comment _ => false
  | .elem _ _ cs => hvNodes cs

def hvNodes : List HNode → Bool
  | [] => false
  | c :: cs => hvNode c || hvNodes cs
end

mutual
/-- Step: unwrap the decorative wrapper tags, inserting a space after each
wrapper that had visible text (to prevent word concatenation).  The source
iterates a `find_all` snapshot per tag; unwrapping is order-independent, so
a single bottom-up pass is equivalent. -/
def udNode : HNode → List HNode
  | .text s => [.text s]
  | .comment s => [.comment s]
  | .elem n a cs =>
    let cs2 := udNodes cs
    if n ∈ unwrapSet then cs2 ++ (if hvNodes cs2 then [.text [' ']] else [])
    else [.elem n a cs2]

def udNodes : List HNode → List HNode
  | [] => []
  | c :: cs => udNode c ++ udNodes cs
end

mutual
/-- Generic tag rename pass (used for `b→strong`/`i→em` and `h1→h2`). -/
def rnNode (g : List Char → List Char) : HNode → HNode
  | .text s => .text s
  | .comment s => .comment s
  | .elem n a cs => .elem (g n) a (rnNodes g cs)

def rnNodes (g : List Char → List Char) : List HNode → List HNode
  | [] => []
  | c :: cs => rnNode g c :: rnNodes g cs
end

/-- The presentational-to-semantic rename: `b→strong`, `i→em`. -/
def gBI (n : List Char) : List Char :=
  if n = "b".toList then "strong".toList
  else if n = "i".toList then "em".toList
  else n

/-- The heading demotion rename: `h1→h2`. -/
def gH1 (n : List Char) : List Char :=
  if n = "h1".toList then "h2".toList else n

/-- The semantic allow list (with `img`, since `include_images = True`). -/
def allowedTags : List (List Char) :=
  ["p".toList, "h1".toList, "h2".toList, "h3".toList, "h4".toList,
   "h5".toList, "h6".toList, "strong".toList, "em".toList, "u".toList,
   "ul".toList, "ol".toList, "li".toList, "blockquote".toList, "pre".toList,
   "code".toList, "a".toList, "img".toList]

/-- The per-tag attribute allow list (`allowed_attrs`). -/
def allowedAttrsFor (n : List Char) : List (List Char) :=
  if n = "a".toList then ["href".toList, "class".toList, "data-is-button".toList]
  else if n = "img".toList then
    ["src".toList, "alt".toList, "title".toList, "width".toList,
     "height".toList, "class".toList]
  else []

/-- Attribute cleaning for one element: buttons keep `href`, `class` and
every `data-*` attribute; other elements keep only their allow list. -/
def caAttrs (n : List Char) (a : List (List Char × List Char)) :
    List (List Char × List Char) :=
  if n = "a".toList && getAttr a ("data-is-button".toList) = some ("true".toList) then
    a.filter (fun p => p.1 = "href".toList ∨ p.1 = "class".toList ∨
      ("data-".toList).isPrefixOf p.1)
  else a.filter (fun p => p.1 ∈ allowedAttrsFor n)

mutual
/-- Step: the allow-list pass — clean attributes of allowed elements and
unwrap the rest (children promoted, space appended when the removed element
had visible text).  A single bottom-up pass, equivalent to the source's
snapshot iteration as for `udNodes`. -/
def caNode : HNode → List HNode
  | .text s => [.text s]
  | .comment s => [.comment s]
  | .elem n a cs =>
    let cs2 := caNodes cs
    if n ∈ allowedTags then [.elem n (caAttrs n a) cs2]
    else cs2 ++ (if hvNodes cs2 then [.text [' ']] else [])

def caNodes : List HNode → List HNode
  | [] => []
  | c :: cs => caNode c ++ caNodes cs
end

/-- The six heading tag names. -/
def headingTags : List (List Char) :=
  ["h1".toList, "h2".toList, "h3".toList, "h4".toList, "h5".toList, "h6".toList]

/-- Predicate selecting heading elements. -/
def isHeadingPred (n : List Char) (_ : List (List Char × List Char)) : Bool :=
  n ∈ headingTags

/-- Predicate selecting images. -/
def isImgPred (n : List Char) (_ : List (List Char × List Char)) : Bool :=
  n = "img".toList

/-- Predicate selecting marked button links. -/
def isButtonPred (n : List Char) (a : List (List Char × List Char)) : Bool :=
  n = "a".toList && getAttr a ("data-is-button".toList) = some ("true".toList)

mutual
/-- Remove every element matched by `pred`, at any depth (node case). -/
def stripTaggedN (pred : List Char → List (List Char × List Char) → Bool) :
    HNode → List HNode
  | .elem n a cs => if pred n a then [] else [.elem n a (stripTagged pred cs)]
  | .text s => [.text s]
  | .comment s => [.comment s]

/-- Remove every element matched by `pred`, at any depth. -/
def stripTagged (pred : List Char → List (List Char × List Char) → Bool) :
    List HNode → List HNode
  | [] => []
  | c :: cs => stripTaggedN pred c ++ stripTagged pred cs
end

mutual
/-- Pre-order collection for one node (see `listTagged`). -/
def listTaggedN (pred : List Char → List (List Char × List Char) → Bool) :
    HNode → List HNode
  | .elem n a cs =>
    if pred n a then .elem n a (stripTagged pred cs) :: listTagged pred cs
    else listTagged pred cs
  | .text _ => []
  | .comment _ => []

/-- Collect the `pred`-matched elements in `find_all` (pre-)order, each with
its own `pred`-matched descendants removed — the net effect of extracting
each match in order and re-inserting it at a fixed anchor. -/
def listTagged (pred : List Char → List (List Char × List Char) → Bool) :
    List HNode → List HNode
  | [] => []
  | c :: cs => listTaggedN pred c ++ listTagged pred cs
end

mutual
/-- Hoisting for one node (see `hoistFrom`). -/
def hoistFromN (cont : List Char → Bool)
    (pred : List Char → List (List Char × List Char) → Bool) :
    HNode → List HNode
  | .elem n a cs =>
    if cont n then listTagged pred cs ++ [.elem n a (stripTagged pred cs)]
    else [.elem n a (hoistFrom cont pred cs)]
  | .text s => [.text s]
  | .comment s => [.comment s]

/-- Steps: hoist `pred`-matched elements out of `cont` containers, inserting
them immediately before the container (`elem.extract(); p.insert_before`).
The source iterates the containers in document order, so an outer container
absorbs all matches before any nested container is visited; containers are
therefore not re-entered once processed. -/
def hoistFrom (cont : List Char → Bool)
    (pred : List Char → List (List Char × List Char) → Bool) :
    List HNode → List HNode
  | [] => []
  | c :: cs => hoistFromN cont pred c ++ hoistFrom cont pred cs
end

/-- Is this node a misplaced direct child of a list (`isinstance(child, Tag)
and child.name not in ['li']`)? -/
def isBadListChild : HNode → Bool
  | .elem n _ _ => n ≠ "li".toList
  | _ => false

mutual
/-- Step: list repair — a `ul`/`ol` keeps its `li` (and string) children and
every other element child is re-inserted after the list via
`insert_after`, which reverses their order; all lists in the original
snapshot are processed, including nested and hoisted ones. -/
def fixNode : HNode → List HNode
  | .text s => [.text s]
  | .comment s => [.comment s]
  | .elem n a cs =>
    if n = "ul".toList ∨ n = "ol".toList then
      .elem n a (goodPart cs) :: badPart cs
    else [.elem n a (fixNodes cs)]

/-- The retained (non-hoisted) children of a list, recursively repaired. -/
def goodPart : List HNode → List HNode
  | [] => []
  | c :: cs => (if isBadListChild c then [] else fixNode c) ++ goodPart cs

/-- The hoisted children in their final (reversed) order, each recursively
repaired in its new position. -/
def badPart : List HNode → List HNode
  | [] => []
  | c :: cs => badPart cs ++ (if isBadListChild c then fixNode c else [])

def fixNodes : List HNode → List HNode
  | [] => []
  | c :: cs => fixNode c ++ fixNodes cs
end

/-- Collapse whitespace runs to single spaces (`re.sub(r'\s+', ' ', ...)`,
applied to one text node); the flag tracks whether the previous character was
whitespace. -/
def collapseWsAux : List Char → Bool → List Char
  | [], _ => []
  | c :: r, prev =>
    if isPySpace c then
      (if prev then collapseWsAux r true else ' ' :: collapseWsAux r true)
    else c :: collapseWsAux r false

/-- Whitespace collapsing for one text node. -/
def collapseWs (l : List Char) : List Char := collapseWsAux l false

mutual
/-- Normalize whitespace in every descendant text node of a paragraph
(comments are skipped by the source's `isinstance` check). -/
def ntNode : HNode → HNode
  | .text s => .text (collapseWs s)
  | .comment s => .comment s
  | .elem n a cs => .elem n a (ntNodes cs)

def ntNodes : List HNode → List HNode
  | [] => []
  | c :: cs => ntNode c :: ntNodes cs
end

mutual
/-- Concatenated text of a forest (`get_text()`; comments are gone by the
time this runs). -/
def gtNode : HNode → List Char
  | .text s => s
  | .comment _ => []
  | .elem _ _ cs => gtNodes cs

def gtNodes : List HNode → List Char
  | [] => []
  | c :: cs => gtNode c ++ gtNodes cs
end

/-- Strip leading whitespace from a paragraph's first text node and trailing
whitespace from its last (the `p.contents[0]` / `p.contents[-1]`
replacements). -/
def stripEdges (cs : List HNode) : List HNode :=
  let cs1 : List HNode :=
    match cs with
    | HNode.text s :: rest => HNode.text (pyLStrip s) :: rest
    | other => other
  match cs1.getLast? with
  | some (HNode.text s) => cs1.dropLast ++ [HNode.text (pyRStrip s)]
  | _ => cs1

mutual
/-- Step: per-paragraph whitespace normalization, edge stripping, and
removal of paragraphs whose remaining text strips to fewer than two
characters (`if not text_content or len(text_content) < 2: p.decompose()`).
Bottom-up, equivalent to the source's snapshot order because edge-stripping
inner paragraphs never changes an outer paragraph's stripped-text length
test. -/
def wsNode : HNode → List HNode
  | .text s => [.text s]
  | .comment s => [.comment s]
  | .elem n a cs =>
    let cs2 := wsNodes cs
    if n = "p".toList then
      let cs3 := stripEdges (ntNodes cs2)
      if (pyStrip (gtNodes cs3)).length < 2 then []
      else [.elem n a cs3]
    else [.elem n a cs2]

def wsNodes : List HNode → List HNode
  | [] => []
  | c :: cs => wsNode c ++ wsNodes cs
end

/-- The tree phase of `clean_html`, steps composed in source order: comment
removal, button marking, `<br>` elimination, lazy-image repair, decorative
unwrapping, `b`/`i` normalization, `h1→h2` demotion, the attribute/tag allow
list, heading and image hoisting out of paragraphs (and images out of
headings), list repair, and paragraph whitespace/emptiness cleanup. -/
def clean_html_tree (ns : List HNode) : List HNode :=
  wsNodes (fixNodes
    (hoistFrom (fun n => n ∈ headingTags) isImgPred
      (hoistFrom (fun n => n = "p".toList) isImgPred
        (hoistFrom (fun n => n = "p".toList) isHeadingPred
          (caNodes (rnNodes gH1 (rnNodes gBI
            (udNodes (liNodes (brNodes (mbNodes (rcNodes ns))))))))))))

/-! ## Serialization (bs4 `str()` with the minimal formatter) and
`html_to_gutenberg` -/

/-- bs4's minimal formatter escapes `&`, `<`, `>` in text. -/
def escapeXmlChar (c : Char) : List Char :=
  if c = '&' then "&amp;".toList
  else if c = '<' then "&lt;".toList
  else if c = '>' then "&gt;".toList
  else [c]

/-- Text-node serialization. -/
def escapeXml (l : List Char) : List Char := l.flatMap escapeXmlChar

/-- Attribute values additionally escape the quote character. -/
def escapeAttrChar (c : Char) : List Char :=
  if c = '"' then "&quot;".toList else escapeXmlChar c

/-- Attribute-value serialization. -/
def escapeAttrVal (l : List Char) : List Char := l.flatMap escapeAttrChar

/-- Render an attribute list as ` key="value"...`. -/
def serializeAttrs (a : List (List Char × List Char)) : List Char :=
  a.flatMap (fun p => ' ' :: (p.1 ++ ('=' :: '"' :: (escapeAttrVal p.2 ++ ['"']))))

/-- The HTML void elements relevant here (serialized self-closing by bs4's
html.parser tree builder). -/
def voidTags : List (List Char) := ["br".toList, "img".toList]

mutual
/-- bs4 `str(node)` with the minimal formatter. -/
def serializeNode : HNode → List Char
  | .text s => escapeXml s
  | .comment s => "<!--".toList ++ s ++ "-->".toList
  | .elem n a cs =>
    if n ∈ voidTags then '<' :: (n ++ serializeAttrs a ++ "/>".toList)
    else '<' :: (n ++ serializeAttrs a ++ ['>']) ++ serializeNodes cs ++
      ("</".toList ++ n ++ ['>'])

def serializeNodes : List HNode → List Char
  | [] => []
  | c :: cs => serializeNode c ++ serializeNodes cs
end

/-- `str(part)` inside the paragraph accumulator: tags serialize, bare
strings (and comments) contribute their raw text. -/
def strPart : HNode → List Char
  | .text s => s
  | .comment s => s
  | n => serializeNode n

/-- Hex digit value for `urllib.parse.unquote`. -/
def hexVal (c : Char) : Option Nat :=
  if '0' ≤ c ∧ c ≤ '9' then some (c.toNat - 48)
  else if 'a' ≤ c ∧ c ≤ 'f' then some (c.toNat - 87)
  else if 'A' ≤ c ∧ c ≤ 'F' then some (c.toNat - 55)
  else none

/-- `urllib.parse.unquote` on the single-byte sequences the alt texts use
(invalid escapes pass through, as in Python). -/
def urlUnquote : List Char → List Char
  | '%' :: a :: b :: r =>
    match hexVal a, hexVal b with
    | some x, some y => Char.ofNat (16 * x + y) :: urlUnquote r
    | _, _ => '%' :: urlUnquote (a :: b :: r)
  | c :: r => c :: urlUnquote r
  | [] => []

/-- The tags the walk treats as block-level. -/
def blockLevelTags : List (List Char) :=
  ["p".toList, "h1".toList, "h2".toList, "h3".toList, "h4".toList, "h5".toList,
   "h6".toList, "ul".toList, "ol".toList, "blockquote".toList, "pre".toList,
   "img".toList]

/-- The digit of a heading tag name, as `int(tag_name[1])` renders it. -/
def headingLevelStr (n : List Char) : List Char := n.drop 1

mutual
/-- Does the forest contain a `code` element (`element.find('code')`)? -/
def hasCodeNode : HNode → Bool
  | .elem n _ cs => n = "code".toList || hasCodeNodes cs
  | _ => false

def hasCodeNodes : List HNode → Bool
  | [] => false
  | c :: cs => hasCodeNode c || hasCodeNodes cs
end

/-- `element_to_gutenberg_block`: one Gutenberg block per element, with the
source's marker strings (`\x7b`/`\x7d` denote the literal braces of the
heading marker). -/
def element_to_gutenberg_block (el : HNode) : List Char :=
  match el with
  | .elem n a cs =>
    if isButtonPred n a then
      "<!-- wp:html -->\n".toList ++
        serializeNode (.elem n (delAttr a ("data-is-button".toList)) cs) ++
        "\n<!-- /wp:html -->".toList
    else if n = "p".toList then
      "<!-- wp:paragraph -->\n".toList ++ serializeNode el ++
        "\n<!-- /wp:paragraph -->".toList
    else if n ∈ headingTags then
      "<!-- wp:heading \x7b\"level\":".toList ++ headingLevelStr n ++
        "\x7d -->\n".toList ++ serializeNode el ++ "\n<!-- /wp:heading -->".toList
    else if n = "ul".toList ∨ n = "ol".toList then
      "<!-- wp:list -->\n".toList ++ serializeNode el ++ "\n<!-- /wp:list -->".toList
    else if n = "blockquote".toList then
      "<!-- wp:quote -->\n<blockquote class=\"wp-block-quote\">".toList ++
        serializeNodes cs ++ "</blockquote>\n<!-- /wp:quote -->".toList
    else if n = "pre".toList then
      if hasCodeNodes cs then
        "<!-- wp:code -->\n<pre class=\"wp-block-code\"><code>".toList ++
          gtNode el ++ "</code></pre>\n<!-- /wp:code -->".toList
      else
        "<!-- wp:preformatted -->\n".toList ++ serializeNode el ++
          "\n<!-- /wp:preformatted -->".toList
    else if n = "img".toList then
      let src := (getAttr a ("src".toList)).getD []
      let alt := urlUnquote ((getAttr a ("alt".toList)).getD [])
      let imgHtml :=
        if alt ≠ [] then
          "<img src=\"".toList ++ src ++ "\" alt=\"".toList ++ alt ++ "\"/>".toList
        else "<img src=\"".toList ++ src ++ "\"/>".toList
      "<!-- wp:image -->\n<figure class=\"wp-block-image\">".toList ++ imgHtml ++
        "</figure>\n<!-- /wp:image -->".toList
    else if n = "strong".toList ∨ n = "em".toList ∨ n = "u".toList ∨
        n = "a".toList ∨ n = "code".toList then
      "<!-- wp:paragraph -->\n<p>".toList ++ serializeNode el ++
        "</p>\n<!-- /wp:paragraph -->".toList
    else if n = "br".toList then []
    else
      "<!-- wp:paragraph -->\n<p>".toList ++ serializeNode el ++
        "</p>\n<!-- /wp:paragraph -->".toList
  | _ => []

/-- The implicit paragraph flushed from accumulated inline parts. -/
def paraBlockOf (parts : List HNode) : List Char :=
  "<!-- wp:paragraph -->\n<p>".toList ++ parts.flatMap strPart ++
    "</p>\n<!-- /wp:paragraph -->".toList

mutual
/-- Button extraction for one node (see `extractButtonsFromPs`). -/
def ebNode : HNode → List HNode
  | .elem n a cs =>
    if n = "p".toList then
      .elem n a (stripTagged isButtonPred cs) :: (listTagged isButtonPred cs).reverse
    else [.elem n a (extractButtonsFromPs cs)]
  | .text s => [.text s]
  | .comment s => [.comment s]

/-- The pre-pass of `html_to_gutenberg`: extract marked button links out of
paragraphs and re-insert them after the paragraph (`p.insert_after`
reverses the order of several buttons). -/
def extractButtonsFromPs : List HNode → List HNode
  | [] => []
  | c :: cs => ebNode c ++ extractButtonsFromPs cs
end

/-- The main walk over the top-level nodes: block-level elements and button
links flush the accumulated inline parts and emit their own block; inline
elements and non-blank strings accumulate. -/
def gutenbergWalk (acc : List HNode) : List HNode → List (List Char)
  | [] => if acc.isEmpty then [] else [paraBlockOf acc]
  | el :: rest =>
    match el with
    | .elem n a _ =>
      if n ∈ blockLevelTags then
        (if acc.isEmpty then [] else [paraBlockOf acc]) ++
          (let blk := element_to_gutenberg_block el
           if blk ≠ [] then blk :: gutenbergWalk [] rest else gutenbergWalk [] rest)
      else if getAttr a ("data-is-button".toList) = some ("true".toList) then
        (if acc.isEmpty then [] else [paraBlockOf acc]) ++
          (let blk := element_to_gutenberg_block el
           if blk ≠ [] then blk :: gutenbergWalk [] rest else gutenbergWalk [] rest)
      else gutenbergWalk (acc ++ [el]) rest
    | .text s =>
      if pyStrip s ≠ [] then gutenbergWalk (acc ++ [.text s]) rest
      else gutenbergWalk acc rest
    | .comment s =>
      if pyStrip s ≠ [] then gutenbergWalk (acc ++ [.comment s]) rest
      else gutenbergWalk acc rest

/-- `html_to_gutenberg`'s block list (the source re-parses the cleaned HTML
string; the model applies the walk to the cleaned tree directly, the parse of
the serialized cleaned fragment being that fragment again). -/
def html_to_gutenberg_blocks (ns : List HNode) : List (List Char) :=
  gutenbergWalk [] (extractButtonsFromPs ns)

/-- `html_to_gutenberg`: the blocks joined by blank lines. -/
def html_to_gutenberg (ns : List HNode) : List Char :=
  List.intercalate ("\n\n".toList) (html_to_gutenberg_blocks ns)

/-! ## C4: list containment -/

/-- Is this node admissible as a direct child of a list (an `li` element or
a bare string)? -/
def liOrNonElem : HNode → Bool
  | .elem n _ _ => n = "li".toList
  | _ => true

mutual
/-- Every list element in this node has only `li` (or string) direct
children. -/
def listOkN : HNode → Bool
  | .text _ => true
  | .comment _ => true
  | .elem n _ cs =>
    (if n = "ul".toList ∨ n = "ol".toList then cs.all liOrNonElem else true) &&
      listOkL cs

/-- `listOkN` over a forest. -/
def listOkL : List HNode → Bool
  | [] => true
  | c :: cs => listOkN c && listOkL cs
end

theorem listOkL_append : ∀ (a b : List HNode),
    listOkL (a ++ b) = (listOkL a && listOkL b) := by
  intro a b
  induction a with
  | nil => simp [listOkL]
  | cons c cs ih => rw [List.cons_append, listOkL, listOkL, ih, Bool.and_assoc]

theorem fixNode_keeps_li : ∀ (c : HNode), isBadListChild c = false →
    (fixNode c).all liOrNonElem = true := by
  intro c h
  match c with
  | .text s => rfl
  | .comment s => rfl
  | .elem n a cs =>
    have hn : n = "li".toList := by
      by_cases hq : n = "li".toList
      · exact hq
      · simp [isBadListChild] at h
        exact absurd h hq
    subst hn
    rw [fixNode, if_neg (by decide)]
    simp [liOrNonElem]

mutual
theorem fixNode_ok : ∀ (nd : HNode), listOkL (fixNode nd) = true
  | .text s => by simp [fixNode, listOkL, listOkN]
  | .comment s => by simp [fixNode, listOkL, listOkN]
  | .elem n a cs => by
    rw [fixNode]
    by_cases h : n = "ul".toList ∨ n = "ol".toList
    · rw [if_pos h]
      rw [listOkL, listOkN]
      have hg := goodPart_ok cs
      have hb := badPart_ok cs
      rw [hg.1, hg.2, hb, if_pos h]
      rfl
    · rw [if_neg h]
      rw [listOkL, listOkN, if_neg h, fixNodes_ok cs]
      rfl

theorem goodPart_ok : ∀ (cs : List HNode),
    listOkL (goodPart cs) = true ∧ (goodPart cs).all liOrNonElem = true
  | [] => ⟨rfl, rfl⟩
  | c :: cs => by
    rw [goodPart]
    have ih := goodPart_ok cs
    constructor
    · rw [listOkL_append, ih.1]
      by_cases hb : isBadListChild c
      · rw [if_pos hb]
        rfl
      · rw [if_neg hb, fixNode_ok c]
        rfl
    · rw [List.all_append, ih.2]
      by_cases hb : isBadListChild c
      · rw [if_pos hb]
        rfl
      · rw [if_neg hb, fixNode_keeps_li c (by simp [hb])]
        rfl

theorem badPart_ok : ∀ (cs : List HNode), listOkL (badPart cs) = true
  | [] => rfl
  | c :: cs => by
    rw [badPart, listOkL_append, badPart_ok cs]
    by_cases hb : isBadListChild c
    · rw [if_pos hb, fixNode_ok c]
      rfl
    · rw [if_neg hb]
      rfl

theorem fixNodes_ok : ∀ (cs : List HNode), listOkL (fixNodes cs) = true
  | [] => rfl
  | c :: cs => by
    rw [fixNodes, listOkL_append, fixNode_ok c, fixNodes_ok cs]
    rfl
end

theorem nt_liOrNonElem : ∀ (c : HNode), liOrNonElem (ntNode c) = liOrNonElem c := by
  intro c
  match c with
  | .text s => rfl
  | .comment s => rfl
  | .elem n a cs => rfl

theorem ntNodes_all : ∀ (cs : List HNode),
    (ntNodes cs).all liOrNonElem = cs.all liOrNonElem := by
  intro cs
  induction cs with
  | nil => rfl
  | cons c cs ih => rw [ntNodes, List.all_cons, List.all_cons, nt_liOrNonElem, ih]

mutual
theorem ntNode_ok : ∀ (nd : HNode), listOkN (ntNode nd) = listOkN nd
  | .text s => rfl
  | .comment s => rfl
  | .elem n a cs => by
    rw [ntNode, listOkN, listOkN, ntNodes_all, ntNodes_ok cs]

theorem ntNodes_ok : ∀ (cs : List HNode), listOkL (ntNodes cs) = listOkL cs
  | [] => rfl
  | c :: cs => by
    rw [ntNodes, listOkL, listOkL, ntNode_ok c, ntNodes_ok cs]
end

theorem listOkL_dropLast : ∀ (l : List HNode), listOkL l = true →
    listOkL l.dropLast = true := by
  intro l
  induction l with
  | nil => intro _; rfl
  | cons c cs ih =>
    intro h
    rw [listOkL, Bool.and_eq_true] at h
    cases cs with
    | nil => rfl
    | cons d r =>
      rw [List.dropLast_cons₂, listOkL, h.1, ih h.2]
      rfl

theorem stripEdges_ok (cs : List HNode) (h : listOkL cs = true) :
    listOkL (stripEdges cs) = true := by
  have h1 : ∀ (cs1 : List HNode), listOkL cs1 = true →
      listOkL (match cs1.getLast? with
        | some (HNode.text s) => cs1.dropLast ++ [HNode.text (pyRStrip s)]
        | _ => cs1) = true := by
    intro cs1 hc
    cases hl : cs1.getLast? with
    | none => exact hc
    | some nd =>
      cases nd with
      | text s =>
        show listOkL (cs1.dropLast ++ [HNode.text (pyRStrip s)]) = true
        rw [listOkL_append, listOkL_dropLast cs1 hc]
        rfl
      | comment s => exact hc
      | elem n a cs2 => exact hc
  cases cs with
  | nil => exact h1 [] h
  | cons c rest =>
    cases c with
    | text s =>
      refine h1 (HNode.text (pyLStrip s) :: rest) ?_
      rw [listOkL] at h ⊢
      exact h
    | comment s => exact h1 _ h
    | elem n a cs2 => exact h1 _ h

mutual
theorem wsNode_ok : ∀ (nd : HNode), listOkN nd = true →
    (listOkL (wsNode nd) = true ∧
      (liOrNonElem nd = true → (wsNode nd).all liOrNonElem = true))
  | .text s => fun _ => ⟨rfl, fun _ => rfl⟩
  | .comment s => fun _ => ⟨rfl, fun _ => rfl⟩
  | .elem n a cs => fun h => by
    rw [listOkN, Bool.and_eq_true] at h
    have ihl := wsNodes_ok cs h.2
    rw [wsNode]
    by_cases hp : n = "p".toList
    · subst hp
      rw [if_pos rfl]
      by_cases hlen : (pyStrip (gtNodes (stripEdges (ntNodes (wsNodes cs))))).length < 2
      · rw [if_pos hlen]
        exact ⟨rfl, fun _ => rfl⟩
      · rw [if_neg hlen]
        constructor
        · rw [listOkL, listOkN]
          rw [if_neg (by decide)]
          rw [stripEdges_ok _ (by rw [ntNodes_ok]; exact ihl)]
          rfl
        · intro hli
          simp [liOrNonElem] at hli
    · rw [if_neg hp]
      constructor
      · by_cases hul : n = "ul".toList ∨ n = "ol".toList
        · have hall : cs.all liOrNonElem = true := by
            have h1 := h.1
            rw [if_pos hul] at h1
            exact h1
          rw [listOkL, listOkN, if_pos hul, ihl, wsNodes_all cs h.2 hall]
          rfl
        · rw [listOkL, listOkN, if_neg hul, ihl]
          rfl
      · intro hli
        rw [List.all_cons, List.all_nil, Bool.and_true]
        rw [liOrNonElem] at hli ⊢
        exact hli

theorem wsNodes_ok : ∀ (cs : List HNode), listOkL cs = true →
    listOkL (wsNodes cs) = true
  | [] => fun _ => rfl
  | c :: cs => fun h => by
    rw [listOkL, Bool.and_eq_true] at h
    rw [wsNodes, listOkL_append, (wsNode_ok c h.1).1, wsNodes_ok cs h.2]
    rfl

theorem wsNodes_all : ∀ (cs : List HNode), listOkL cs = true →
    cs.all liOrNonElem = true → (wsNodes cs).all liOrNonElem = true
  | [] => fun _ _ => rfl
  | c :: cs => fun h ha => by
    rw [listOkL, Bool.and_eq_true] at h
    rw [List.all_cons, Bool.and_eq_true] at ha
    rw [wsNodes, List.all_append, (wsNode_ok c h.1).2 ha.1,
      wsNodes_all cs h.2 ha.2]
    rfl
end

set_option maxRecDepth 8192 in
/-- C4 (confirmed).  List containment: after normalization every `ul`/`ol`
element has only `li` (or bare string) direct children — any misplaced block
element is hoisted out before block conversion — and on the spec's scenario
(`<ul><li>item</li><p>note</p></ul>`) the emitted List block contains only
the `li` child while the hoisted paragraph becomes a separate Paragraph
block immediately after the list. -/
theorem list_containment (ns : List HNode) :
    listOkL (clean_html_tree ns) = true ∧
    html_to_gutenberg_blocks (clean_html_tree
      [.elem ("ul".toList) [] [.elem ("li".toList) [] [.text ("item".toList)],
        .elem ("p".toList) [] [.text ("note".toList)]]]) =
      ["<!-- wp:list -->\n<ul><li>item</li></ul>\n<!-- /wp:list -->".toList,
       "<!-- wp:paragraph -->\n<p>note</p>\n<!-- /wp:paragraph -->".toList] := by
  constructor
  · rw [clean_html_tree]
    exact wsNodes_ok _ (fixNodes_ok _)
  · rfl

/-! ## C3: heading demotion

The h1-demotion claim is settled by counting elements of a given tag through
the pipeline: after the rename no `h1` remains, and the `h2` count equals the
original `h1` plus `h2` counts — no heading is deleted.  The only
wellformedness assumption is the parser invariant that `br` (a void element)
has no children, which the `<br> → ' '` replacement would otherwise
discard. -/

mutual
/-- Number of elements with tag `t` in a node. -/
def cntN (t : List Char) : HNode → Nat
  | .elem n _ cs => (if n = t then 1 else 0) + cntL t cs
  | _ => 0

/-- Number of elements with tag `t` in a forest. -/
def cntL (t : List Char) : List HNode → Nat
  | [] => 0
  | c :: cs => cntN t c + cntL t cs
end

mutual
/-- Parser invariant: `br` elements are childless (they are void in HTML). -/
def wfBrN : HNode → Bool
  | .elem n _ cs => (if n = "br".toList then cs.isEmpty else true) && wfBrL cs
  | _ => true

/-- `wfBrN` over a forest. -/
def wfBrL : List HNode → Bool
  | [] => true
  | c :: cs => wfBrN c && wfBrL cs
end

/-- Is this one of the six heading tags? -/
def isHeadTag (n : List Char) : Bool := n ∈ headingTags

mutual
/-- Does the node contain an element whose tag satisfies `q`? -/
def hasTagN (q : List Char → Bool) : HNode → Bool
  | .elem n _ cs => q n || hasTagL q cs
  | _ => false

/-- `hasTagN` over a forest. -/
def hasTagL (q : List Char → Bool) : List HNode → Bool
  | [] => false
  | c :: cs => hasTagN q c || hasTagL q cs
end

mutual
/-- The invariant established by heading hoisting: no paragraph contains a
heading descendant. -/
def nhpN : HNode → Bool
  | .elem n _ cs =>
    (if n = "p".toList then !(hasTagL isHeadTag cs) else true) && nhpL cs
  | _ => true

/-- `nhpN` over a forest. -/
def nhpL : List HNode → Bool
  | [] => true
  | c :: cs => nhpN c && nhpL cs
end

theorem cntL_append : ∀ (t : List Char) (a b : List HNode),
    cntL t (a ++ b) = cntL t a + cntL t b := by
  intro t a b
  induction a with
  | nil => simp [cntL]
  | cons c cs ih => rw [List.cons_append, cntL, cntL, ih]; omega

theorem hasTagL_append : ∀ (q : List Char → Bool) (a b : List HNode),
    hasTagL q (a ++ b) = (hasTagL q a || hasTagL q b) := by
  intro q a b
  induction a with
  | nil => simp [hasTagL]
  | cons c cs ih => rw [List.cons_append, hasTagL, hasTagL, ih, Bool.or_assoc]

theorem nhpL_append : ∀ (a b : List HNode),
    nhpL (a ++ b) = (nhpL a && nhpL b) := by
  intro a b
  induction a with
  | nil => simp [nhpL]
  | cons c cs ih => rw [List.cons_append, nhpL, nhpL, ih, Bool.and_assoc]

theorem wfBrL_append : ∀ (a b : List HNode),
    wfBrL (a ++ b) = (wfBrL a && wfBrL b) := by
  intro a b
  induction a with
  | nil => simp [wfBrL]
  | cons c cs ih => rw [List.cons_append, wfBrL, wfBrL, ih, Bool.and_assoc]

mutual
theorem cnt_rcN : ∀ (t : List Char) (nd : HNode), cntL t (rcNode nd) = cntN t nd
  | t, .text s => rfl
  | t, .comment s => rfl
  | t, .elem n a cs => by
    rw [rcNode, cntL, cntN, cntN, cnt_rcL t cs]
    rfl

theorem cnt_rcL : ∀ (t : List Char) (cs : List HNode), cntL t (rcNodes cs) = cntL t cs
  | t, [] => rfl
  | t, c :: cs => by
    rw [rcNodes, cntL_append, cnt_rcN t c, cnt_rcL t cs, cntL]
end

mutual
theorem wf_rcN : ∀ (nd : HNode), wfBrN nd = true → wfBrL (rcNode nd) = true
  | .text s => fun _ => rfl
  | .comment s => fun _ => rfl
  | .elem n a cs => fun h => by
    rw [wfBrN, Bool.and_eq_true] at h
    rw [rcNode, wfBrL, wfBrN, wf_rcL cs h.2]
    have hc : (if n = "br".toList then (rcNodes cs).isEmpty else true) = true := by
      by_cases hb : n = "br".toList
      · rw [if_pos hb]
        have h1 := h.1
        rw [if_pos hb] at h1
        have : cs = [] := by
          cases cs with
          | nil => rfl
          | cons x xs => simp [List.isEmpty] at h1
        rw [this]
        rfl
      · rw [if_neg hb]
    rw [hc]
    rfl

theorem wf_rcL : ∀ (cs : List HNode), wfBrL cs = true → wfBrL (rcNodes cs) = true
  | [] => fun _ => rfl
  | c :: cs => fun h => by
    rw [wfBrL, Bool.and_eq_true] at h
    rw [rcNodes, wfBrL_append, wf_rcN c h.1, wf_rcL cs h.2]
    rfl
end

mutual
theorem cnt_mbN : ∀ (t : List Char) (nd : HNode), cntN t (mbNode nd) = cntN t nd
  | t, .text s => rfl
  | t, .comment s => rfl
  | t, .elem n a cs => by
    rw [mbNode]
    by_cases h : (n = "a".toList &&
        (match getAttr a ("class".toList) with
         | some v => isButtonClass v
         | none => false) : Bool)
    · rw [if_pos h, cntN, cntN, cnt_mbL t cs]
    · rw [if_neg h, cntN, cntN, cnt_mbL t cs]

theorem cnt_mbL : ∀ (t : List Char) (cs : List HNode), cntL t (mbNodes cs) = cntL t cs
  | t, [] => rfl
  | t, c :: cs => by
    rw [mbNodes, cntL, cntL, cnt_mbN t c, cnt_mbL t cs]
end

mutual
theorem wf_mbN : ∀ (nd : HNode), wfBrN nd = true → wfBrN (mbNode nd) = true
  | .text s => fun _ => rfl
  | .comment s => fun _ => rfl
  | .elem n a cs => fun h => by
    rw [wfBrN, Bool.and_eq_true] at h
    have hcs := wf_mbL cs h.2
    have hc : ∀ (a2 : List (List Char × List Char)),
        wfBrN (HNode.elem n a2 (mbNodes cs)) = true := by
      intro a2
      rw [wfBrN, hcs]
      have : (if n = "br".toList then (mbNodes cs).isEmpty else true) = true := by
        by_cases hb : n = "br".toList
        · rw [if_pos hb]
          have h1 := h.1
          rw [if_pos hb] at h1
          cases cs with
          | nil => rfl
          | cons x xs => simp [List.isEmpty] at h1
        · rw [if_neg hb]
      rw [this]
      rfl
    rw [mbNode]
    by_cases hbtn : (n = "a".toList &&
        (match getAttr a ("class".toList) with
         | some v => isButtonClass v
         | none => false) : Bool)
    · rw [if_pos hbtn]
      exact hc _
    · rw [if_neg hbtn]
      exact hc _

theorem wf_mbL : ∀ (cs : List HNode), wfBrL cs = true → wfBrL (mbNodes cs) = true
  | [] => fun _ => rfl
  | c :: cs => fun h => by
    rw [wfBrL, Bool.and_eq_true] at h
    rw [mbNodes, wfBrL, wf_mbN c h.1, wf_mbL cs h.2]
    rfl
end

mutual
theorem cnt_brN : ∀ (t : List Char) (nd : HNode), t ≠ "br".toList →
    wfBrN nd = true → cntN t (brNode nd) = cntN t nd
  | t, .text s => fun _ _ => rfl
  | t, .comment s => fun _ _ => rfl
  | t, .elem n a cs => fun ht h => by
    rw [wfBrN, Bool.and_eq_true] at h
    by_cases hb : n = "br".toList
    · subst hb
      have h1 := h.1
      rw [if_pos rfl] at h1
      have hcs : cs = [] := by
        cases cs with
        | nil => rfl
        | cons x xs => simp [List.isEmpty] at h1
      subst hcs
      rw [brNode, if_pos rfl]
      show 0 = cntN t (HNode.elem ("br".toList) a [])
      rw [cntN, cntL, if_neg (Ne.symm ht)]
    · rw [brNode, if_neg hb, cntN, cntN, cnt_brL t cs ht h.2]

theorem cnt_brL : ∀ (t : List Char) (cs : List HNode), t ≠ "br".toList →
    wfBrL cs = true → cntL t (brNodes cs) = cntL t cs
  | t, [] => fun _ _ => rfl
  | t, c :: cs => fun ht h => by
    rw [wfBrL, Bool.and_eq_true] at h
    rw [brNodes, cntL, cntL, cnt_brN t c ht h.1, cnt_brL t cs ht h.2]
end

mutual
theorem cnt_liN : ∀ (t : List Char) (nd : HNode), cntN t (liNode nd) = cntN t nd
  | t, .text s => rfl
  | t, .comment s => rfl
  | t, .elem n a cs => by
    rw [liNode]
    by_cases hb : n = "img".toList
    · rw [if_pos hb]
      cases hg : getAttr a ("data-pin-media".toList) with
      | some v =>
        show cntN t (HNode.elem n
          (lazyAttrs.foldl delAttr (setAttr a ("src".toList) v)) (liNodes cs)) =
          cntN t (HNode.elem n a cs)
        rw [cntN, cntN, cnt_liL t cs]
      | none =>
        show cntN t (HNode.elem n a (liNodes cs)) = cntN t (HNode.elem n a cs)
        rw [cntN, cntN, cnt_liL t cs]
    · rw [if_neg hb, cntN, cntN, cnt_liL t cs]

theorem cnt_liL : ∀ (t : List Char) (cs : List HNode), cntL t (liNodes cs) = cntL t cs
  | t, [] => rfl
  | t, c :: cs => by
    rw [liNodes, cntL, cntL, cnt_liN t c, cnt_liL t cs]
end

mutual
theorem cnt_udN : ∀ (t : List Char) (nd : HNode), t ∉ unwrapSet →
    cntL t (udNode nd) = cntN t nd
  | t, .text s => fun _ => by rw [udNode]; rfl
  | t, .comment s => fun _ => by rw [udNode]; rfl
  | t, .elem n a cs => fun ht => by
    rw [udNode]
    by_cases hu : n ∈ unwrapSet
    · rw [if_pos hu, cntL_append, cnt_udL t cs ht, cntN]
      have hz : cntL t (if hvNodes (udNodes cs) then [HNode.text [' ']] else []) = 0 := by
        by_cases hv : hvNodes (udNodes cs) = true
        · rw [if_pos hv]; rfl
        · rw [if_neg hv]; rfl
      rw [hz]
      have hnt : ¬ (n = t) := fun he => ht (he ▸ hu)
      rw [if_neg hnt]
      omega
    · rw [if_neg hu, cntL, cntL, cntN, cntN, cnt_udL t cs ht]
      omega

theorem cnt_udL : ∀ (t : List Char) (cs : List HNode), t ∉ unwrapSet →
    cntL t (udNodes cs) = cntL t cs
  | t, [] => fun _ => rfl
  | t, c :: cs => fun ht => by
    rw [udNodes, cntL_append, cnt_udN t c ht, cnt_udL t cs ht, cntL]
end

mutual
theorem cnt_rnN : ∀ (g : List Char → List Char) (t : List Char) (nd : HNode),
    (∀ m, g m = t ↔ m = t) → cntN t (rnNode g nd) = cntN t nd
  | g, t, .text s => fun _ => rfl
  | g, t, .comment s => fun _ => rfl
  | g, t, .elem n a cs => fun hg => by
    rw [rnNode, cntN, cntN, cnt_rnL g t cs hg]
    by_cases hn : n = t
    · rw [if_pos ((hg n).mpr hn), if_pos hn]
    · rw [if_neg (fun he => hn ((hg n).mp he)), if_neg hn]

theorem cnt_rnL : ∀ (g : List Char → List Char) (t : List Char) (cs : List HNode),
    (∀ m, g m = t ↔ m = t) → cntL t (rnNodes g cs) = cntL t cs
  | g, t, [] => fun _ => rfl
  | g, t, c :: cs => fun hg => by
    rw [rnNodes, cntL, cntL, cnt_rnN g t c hg, cnt_rnL g t cs hg]
end

mutual
theorem cnt_h1N : ∀ (nd : HNode), cntN ("h1".toList) (rnNode gH1 nd) = 0
  | .text s => rfl
  | .comment s => rfl
  | .elem n a cs => by
    rw [rnNode, cntN, cnt_h1L cs]
    have hne : ¬ (gH1 n = "h1".toList) := by
      rw [gH1]
      by_cases hn : n = "h1".toList
      · rw [if_pos hn]; decide
      · rw [if_neg hn]; exact hn
    rw [if_neg hne]

theorem cnt_h1L : ∀ (cs : List HNode), cntL ("h1".toList) (rnNodes gH1 cs) = 0
  | [] => rfl
  | c :: cs => by
    rw [rnNodes, cntL, cnt_h1N c, cnt_h1L cs]
end

mutual
theorem cnt_h2N : ∀ (nd : HNode), cntN ("h2".toList) (rnNode gH1 nd) =
    cntN ("h1".toList) nd + cntN ("h2".toList) nd
  | .text s => rfl
  | .comment s => rfl
  | .elem n a cs => by
    rw [rnNode, cntN, cntN, cntN, cnt_h2L cs]
    have hind : (if gH1 n = "h2".toList then 1 else 0) =
        (if n = "h1".toList then 1 else 0) + (if n = "h2".toList then 1 else 0) := by
      rw [gH1]
      by_cases h1 : n = "h1".toList
      · have hn2 : ¬ (n = "h2".toList) := by rw [h1]; decide
        rw [if_pos h1, if_pos rfl, if_pos h1, if_neg hn2]
      · rw [if_neg h1, if_neg h1]
        by_cases h2 : n = "h2".toList
        · rw [if_pos h2]
        · rw [if_neg h2]
    rw [hind]
    omega

theorem cnt_h2L : ∀ (cs : List HNode), cntL ("h2".toList) (rnNodes gH1 cs) =
    cntL ("h1".toList) cs + cntL ("h2".toList) cs
  | [] => rfl
  | c :: cs => by
    rw [rnNodes, cntL, cntL, cntL, cnt_h2N c, cnt_h2L cs]
    omega
end

mutual
theorem cnt_caN : ∀ (t : List Char) (nd : HNode), t ∈ allowedTags →
    cntL t (caNode nd) = cntN t nd
  | t, .text s => fun _ => by rw [caNode]; rfl
  | t, .comment s => fun _ => by rw [caNode]; rfl
  | t, .elem n a cs => fun ht => by
    rw [caNode]
    by_cases ha : n ∈ allowedTags
    · rw [if_pos ha, cntL, cntL, cntN, cntN, cnt_caL t cs ht]
      omega
    · rw [if_neg ha, cntL_append, cnt_caL t cs ht, cntN]
      have hz : cntL t (if hvNodes (caNodes cs) then [HNode.text [' ']] else []) = 0 := by
        by_cases hv : hvNodes (caNodes cs) = true
        · rw [if_pos hv]; rfl
        · rw [if_neg hv]; rfl
      rw [hz]
      have hnt : ¬ (n = t) := fun he => ha (he ▸ ht)
      rw [if_neg hnt]
      omega

theorem cnt_caL : ∀ (t : List Char) (cs : List HNode), t ∈ allowedTags →
    cntL t (caNodes cs) = cntL t cs
  | t, [] => fun _ => rfl
  | t, c :: cs => fun ht => by
    rw [caNodes, cntL_append, cnt_caN t c ht, cnt_caL t cs ht, cntL]
end

mutual
theorem cnt_partN : ∀ (t : List Char)
    (pred : List Char → List (List Char × List Char) → Bool) (nd : HNode),
    cntL t (listTaggedN pred nd) + cntL t (stripTaggedN pred nd) = cntN t nd
  | t, pred, .text s => rfl
  | t, pred, .comment s => rfl
  | t, pred, .elem n a cs => by
    rw [listTaggedN, stripTaggedN]
    have h2 := cnt_partL t pred cs
    by_cases hp : pred n a = true
    · rw [if_pos hp, if_pos hp]
      simp only [cntL, cntN]
      omega
    · rw [if_neg hp, if_neg hp]
      simp only [cntL, cntN]
      omega

theorem cnt_partL : ∀ (t : List Char)
    (pred : List Char → List (List Char × List Char) → Bool) (cs : List HNode),
    cntL t (listTagged pred cs) + cntL t (stripTagged pred cs) = cntL t cs
  | t, pred, [] => rfl
  | t, pred, c :: cs => by
    rw [listTagged, stripTagged, cntL_append, cntL_append, cntL]
    have h1 := cnt_partN t pred c
    have h2 := cnt_partL t pred cs
    omega
end

mutual
theorem ht_partN : ∀ (q : List Char → Bool)
    (pred : List Char → List (List Char × List Char) → Bool) (nd : HNode),
    (hasTagL q (listTaggedN pred nd) || hasTagL q (stripTaggedN pred nd)) =
      hasTagN q nd
  | q, pred, .text s => rfl
  | q, pred, .comment s => rfl
  | q, pred, .elem n a cs => by
    rw [listTaggedN, stripTaggedN]
    have h2 := ht_partL q pred cs
    by_cases hp : pred n a = true
    · rw [if_pos hp, if_pos hp]
      simp only [hasTagL, hasTagN, Bool.or_false]
      rw [Bool.or_assoc,
        Bool.or_comm (hasTagL q (stripTagged pred cs)) (hasTagL q (listTagged pred cs)),
        h2]
    · rw [if_neg hp, if_neg hp]
      simp only [hasTagL, hasTagN, Bool.or_false]
      rw [← Bool.or_assoc,
        Bool.or_comm (hasTagL q (listTagged pred cs)) (q n), Bool.or_assoc, h2]

theorem ht_partL : ∀ (q : List Char → Bool)
    (pred : List Char → List (List Char × List Char) → Bool) (cs : List HNode),
    (hasTagL q (listTagged pred cs) || hasTagL q (stripTagged pred cs)) =
      hasTagL q cs
  | q, pred, [] => rfl
  | q, pred, c :: cs => by
    rw [listTagged, stripTagged, hasTagL_append, hasTagL_append, hasTagL,
      ← ht_partN q pred c, ← ht_partL q pred cs]
    rw [Bool.or_assoc, Bool.or_assoc]
    rw [← Bool.or_assoc (hasTagL q (stripTaggedN pred c))]
    rw [Bool.or_comm (hasTagL q (stripTaggedN pred c)) (hasTagL q (listTagged pred cs))]
    rw [Bool.or_assoc]
end

mutual
theorem cnt_hoistN : ∀ (t : List Char) (cont : List Char → Bool)
    (pred : List Char → List (List Char × List Char) → Bool) (nd : HNode),
    cntL t (hoistFromN cont pred nd) = cntN t nd
  | t, cont, pred, .text s => rfl
  | t, cont, pred, .comment s => rfl
  | t, cont, pred, .elem n a cs => by
    rw [hoistFromN]
    by_cases hc : cont n = true
    · rw [if_pos hc, cntL_append]
      simp only [cntL, cntN]
      have := cnt_partL t pred cs
      omega
    · rw [if_neg hc]
      simp only [cntL, cntN]
      rw [cnt_hoistL t cont pred cs]
      omega

theorem cnt_hoistL : ∀ (t : List Char) (cont : List Char → Bool)
    (pred : List Char → List (List Char × List Char) → Bool) (cs : List HNode),
    cntL t (hoistFrom cont pred cs) = cntL t cs
  | t, cont, pred, [] => rfl
  | t, cont, pred, c :: cs => by
    rw [hoistFrom, cntL_append, cnt_hoistN t cont pred c, cnt_hoistL t cont pred cs,
      cntL]
end

mutual
theorem cnt_fixN : ∀ (t : List Char) (nd : HNode), cntL t (fixNode nd) = cntN t nd
  | t, .text s => rfl
  | t, .comment s => rfl
  | t, .elem n a cs => by
    rw [fixNode]
    by_cases hl : n = "ul".toList ∨ n = "ol".toList
    · rw [if_pos hl]
      simp only [cntL, cntN]
      have := cnt_gbL t cs
      omega
    · rw [if_neg hl]
      simp only [cntL, cntN]
      rw [cnt_fixL t cs]
      omega

theorem cnt_gbL : ∀ (t : List Char) (cs : List HNode),
    cntL t (goodPart cs) + cntL t (badPart cs) = cntL t cs
  | t, [] => rfl
  | t, c :: cs => by
    rw [goodPart, badPart, cntL_append, cntL_append, cntL]
    have h1 := cnt_gbL t cs
    have h2 := cnt_fixN t c
    by_cases hb : isBadListChild c = true
    · rw [if_pos hb, if_pos hb]
      simp only [cntL]
      omega
    · rw [if_neg hb, if_neg hb]
      simp only [cntL]
      omega

theorem cnt_fixL : ∀ (t : List Char) (cs : List HNode), cntL t (fixNodes cs) = cntL t cs
  | t, [] => rfl
  | t, c :: cs => by
    rw [fixNodes, cntL_append, cnt_fixN t c, cnt_fixL t cs, cntL]
end

theorem notb_true : ∀ {b : Bool}, (!b) = true → b = false := by
  intro b h
  cases b
  · rfl
  · exact absurd h (by decide)

theorem notb_of_false : ∀ {b : Bool}, b = false → (!b) = true := by
  intro b h
  rw [h]
  rfl

theorem orb_false_left : ∀ {a b : Bool}, (a || b) = false → a = false := by
  intro a b h
  cases a
  · rfl
  · cases b <;> exact absurd h (by decide)

theorem orb_false_right : ∀ {a b : Bool}, (a || b) = false → b = false := by
  intro a b h
  cases a
  · exact h
  · cases b <;> exact absurd h (by decide)

theorem hasTagL_reverse : ∀ (q : List Char → Bool) (l : List HNode),
    hasTagL q l.reverse = hasTagL q l := by
  intro q l
  induction l with
  | nil => rfl
  | cons c cs ih =>
    rw [List.reverse_cons, hasTagL_append, ih]
    simp only [hasTagL, Bool.or_false]
    rw [Bool.or_comm]

mutual
theorem noHead_nhpN : ∀ (nd : HNode), hasTagN isHeadTag nd = false → nhpN nd = true
  | .text s => fun _ => rfl
  | .comment s => fun _ => rfl
  | .elem n a cs => fun h => by
    rw [hasTagN] at h
    have hcs := orb_false_right h
    rw [nhpN, noHead_nhpL cs hcs, Bool.and_true]
    by_cases hp : n = "p".toList
    · rw [if_pos hp]
      exact notb_of_false hcs
    · rw [if_neg hp]

theorem noHead_nhpL : ∀ (cs : List HNode), hasTagL isHeadTag cs = false → nhpL cs = true
  | [] => fun _ => rfl
  | c :: cs => fun h => by
    rw [hasTagL] at h
    rw [nhpL, noHead_nhpN c (orb_false_left h), noHead_nhpL cs (orb_false_right h)]
    rfl
end

mutual
theorem ht_stripAllN : ∀ (q : List Char → Bool)
    (pred : List Char → List (List Char × List Char) → Bool) (nd : HNode),
    (∀ n a, q n = true → pred n a = true) →
    hasTagL q (stripTaggedN pred nd) = false
  | q, pred, .text s => fun _ => rfl
  | q, pred, .comment s => fun _ => rfl
  | q, pred, .elem n a cs => fun hqp => by
    rw [stripTaggedN]
    by_cases hp : pred n a = true
    · rw [if_pos hp]
      rfl
    · rw [if_neg hp]
      rw [hasTagL, hasTagN, hasTagL, Bool.or_false, ht_stripAllL q pred cs hqp,
        Bool.or_false]
      cases hq : q n
      · rfl
      · exact absurd (hqp n a hq) hp

theorem ht_stripAllL : ∀ (q : List Char → Bool)
    (pred : List Char → List (List Char × List Char) → Bool) (cs : List HNode),
    (∀ n a, q n = true → pred n a = true) →
    hasTagL q (stripTagged pred cs) = false
  | q, pred, [] => fun _ => rfl
  | q, pred, c :: cs => fun hqp => by
    rw [stripTagged, hasTagL_append, ht_stripAllN q pred c hqp,
      ht_stripAllL q pred cs hqp]
    rfl
end

theorem ht_strip_mono (q : List Char → Bool)
    (pred : List Char → List (List Char × List Char) → Bool) (cs : List HNode)
    (h : hasTagL q cs = false) : hasTagL q (stripTagged pred cs) = false := by
  have hp := ht_partL q pred cs
  rw [h] at hp
  exact orb_false_right hp

theorem ht_list_mono (q : List Char → Bool)
    (pred : List Char → List (List Char × List Char) → Bool) (cs : List HNode)
    (h : hasTagL q cs = false) : hasTagL q (listTagged pred cs) = false := by
  have hp := ht_partL q pred cs
  rw [h] at hp
  exact orb_false_left hp

mutual
theorem nhp_stripN : ∀ (pred : List Char → List (List Char × List Char) → Bool)
    (nd : HNode), nhpN nd = true → nhpL (stripTaggedN pred nd) = true
  | pred, .text s => fun _ => rfl
  | pred, .comment s => fun _ => rfl
  | pred, .elem n a cs => fun h => by
    rw [nhpN, Bool.and_eq_true] at h
    rw [stripTaggedN]
    by_cases hp : pred n a = true
    · rw [if_pos hp]
      rfl
    · rw [if_neg hp]
      simp only [nhpL, nhpN, Bool.and_true]
      rw [nhp_stripL pred cs h.2, Bool.and_true]
      by_cases hq : n = "p".toList
      · rw [if_pos hq]
        have h1 := h.1
        rw [if_pos hq] at h1
        exact notb_of_false (ht_strip_mono _ pred cs (notb_true h1))
      · rw [if_neg hq]

theorem nhp_stripL : ∀ (pred : List Char → List (List Char × List Char) → Bool)
    (cs : List HNode), nhpL cs = true → nhpL (stripTagged pred cs) = true
  | pred, [] => fun _ => rfl
  | pred, c :: cs => fun h => by
    rw [nhpL, Bool.and_eq_true] at h
    rw [stripTagged, nhpL_append, nhp_stripN pred c h.1, nhp_stripL pred cs h.2]
    rfl
end

mutual
theorem nhp_listN : ∀ (pred : List Char → List (List Char × List Char) → Bool)
    (nd : HNode), nhpN nd = true → nhpL (listTaggedN pred nd) = true
  | pred, .text s => fun _ => rfl
  | pred, .comment s => fun _ => rfl
  | pred, .elem n a cs => fun h => by
    rw [nhpN, Bool.and_eq_true] at h
    rw [listTaggedN]
    by_cases hp : pred n a = true
    · rw [if_pos hp]
      simp only [nhpL, nhpN]
      rw [nhp_listL pred cs h.2, Bool.and_true, nhp_stripL pred cs h.2,
        Bool.and_true]
      by_cases hq : n = "p".toList
      · rw [if_pos hq]
        have h1 := h.1
        rw [if_pos hq] at h1
        exact notb_of_false (ht_strip_mono _ pred cs (notb_true h1))
      · rw [if_neg hq]
    · rw [if_neg hp]
      exact nhp_listL pred cs h.2

theorem nhp_listL : ∀ (pred : List Char → List (List Char × List Char) → Bool)
    (cs : List HNode), nhpL cs = true → nhpL (listTagged pred cs) = true
  | pred, [] => fun _ => rfl
  | pred, c :: cs => fun h => by
    rw [nhpL, Bool.and_eq_true] at h
    rw [listTagged, nhpL_append, nhp_listN pred c h.1, nhp_listL pred cs h.2]
    rfl
end

mutual
theorem nhpAll_listN : ∀ (pred : List Char → List (List Char × List Char) → Bool)
    (nd : HNode), (∀ n a, isHeadTag n = true → pred n a = true) →
    nhpL (listTaggedN pred nd) = true
  | pred, .text s => fun _ => rfl
  | pred, .comment s => fun _ => rfl
  | pred, .elem n a cs => fun hqp => by
    rw [listTaggedN]
    by_cases hp : pred n a = true
    · rw [if_pos hp]
      simp only [nhpL, nhpN]
      rw [nhpAll_listL pred cs hqp, Bool.and_true]
      have hstrip := ht_stripAllL isHeadTag pred cs hqp
      rw [noHead_nhpL _ hstrip, Bool.and_true]
      by_cases hq : n = "p".toList
      · rw [if_pos hq]
        exact notb_of_false hstrip
      · rw [if_neg hq]
    · rw [if_neg hp]
      exact nhpAll_listL pred cs hqp

theorem nhpAll_listL : ∀ (pred : List Char → List (List Char × List Char) → Bool)
    (cs : List HNode), (∀ n a, isHeadTag n = true → pred n a = true) →
    nhpL (listTagged pred cs) = true
  | pred, [] => fun _ => rfl
  | pred, c :: cs => fun hqp => by
    rw [listTagged, nhpL_append, nhpAll_listN pred c hqp, nhpAll_listL pred cs hqp]
    rfl
end

mutual
theorem ht_hoistN : ∀ (q : List Char → Bool) (cont : List Char → Bool)
    (pred : List Char → List (List Char × List Char) → Bool) (nd : HNode),
    hasTagL q (hoistFromN cont pred nd) = hasTagN q nd
  | q, cont, pred, .text s => rfl
  | q, cont, pred, .comment s => rfl
  | q, cont, pred, .elem n a cs => by
    rw [hoistFromN]
    by_cases hc : cont n = true
    · rw [if_pos hc, hasTagL_append]
      simp only [hasTagL, hasTagN, Bool.or_false]
      have h1 := ht_partL q pred cs
      cases hx : q n <;> cases hy : hasTagL q (listTagged pred cs) <;>
        cases hz : hasTagL q (stripTagged pred cs) <;> simp_all
    · rw [if_neg hc]
      simp only [hasTagL, hasTagN, Bool.or_false]
      rw [ht_hoistL q cont pred cs]

theorem ht_hoistL : ∀ (q : List Char → Bool) (cont : List Char → Bool)
    (pred : List Char → List (List Char × List Char) → Bool) (cs : List HNode),
    hasTagL q (hoistFrom cont pred cs) = hasTagL q cs
  | q, cont, pred, [] => rfl
  | q, cont, pred, c :: cs => by
    rw [hoistFrom, hasTagL_append, ht_hoistN q cont pred c,
      ht_hoistL q cont pred cs, hasTagL]
end

mutual
theorem nhp_hoistN : ∀ (cont : List Char → Bool)
    (pred : List Char → List (List Char × List Char) → Bool) (nd : HNode),
    nhpN nd = true → nhpL (hoistFromN cont pred nd) = true
  | cont, pred, .text s => fun _ => rfl
  | cont, pred, .comment s => fun _ => rfl
  | cont, pred, .elem n a cs => fun h => by
    rw [nhpN, Bool.and_eq_true] at h
    rw [hoistFromN]
    by_cases hc : cont n = true
    · rw [if_pos hc, nhpL_append, nhp_listL pred cs h.2]
      simp only [nhpL, nhpN, Bool.and_true, Bool.true_and]
      rw [nhp_stripL pred cs h.2, Bool.and_true]
      by_cases hq : n = "p".toList
      · rw [if_pos hq]
        have h1 := h.1
        rw [if_pos hq] at h1
        exact notb_of_false (ht_strip_mono _ pred cs (notb_true h1))
      · rw [if_neg hq]
    · rw [if_neg hc]
      simp only [nhpL, nhpN, Bool.and_true]
      rw [nhp_hoistL cont pred cs h.2, Bool.and_true]
      by_cases hq : n = "p".toList
      · rw [if_pos hq]
        have h1 := h.1
        rw [if_pos hq] at h1
        rw [ht_hoistL]
        exact h1
      · rw [if_neg hq]

theorem nhp_hoistL : ∀ (cont : List Char → Bool)
    (pred : List Char → List (List Char × List Char) → Bool) (cs : List HNode),
    nhpL cs = true → nhpL (hoistFrom cont pred cs) = true
  | cont, pred, [] => fun _ => rfl
  | cont, pred, c :: cs => fun h => by
    rw [nhpL, Bool.and_eq_true] at h
    rw [hoistFrom, nhpL_append, nhp_hoistN cont pred c h.1,
      nhp_hoistL cont pred cs h.2]
    rfl
end

mutual
theorem nhp_estN : ∀ (cont : List Char → Bool)
    (pred : List Char → List (List Char × List Char) → Bool) (nd : HNode),
    (∀ n a, isHeadTag n = true → pred n a = true) → cont ("p".toList) = true →
    nhpL (hoistFromN cont pred nd) = true
  | cont, pred, .text s => fun _ _ => rfl
  | cont, pred, .comment s => fun _ _ => rfl
  | cont, pred, .elem n a cs => fun hqp hp => by
    rw [hoistFromN]
    by_cases hc : cont n = true
    · rw [if_pos hc, nhpL_append, nhpAll_listL pred cs hqp]
      simp only [nhpL, nhpN, Bool.true_and, Bool.and_true]
      have hstrip := ht_stripAllL isHeadTag pred cs hqp
      rw [noHead_nhpL _ hstrip, Bool.and_true]
      by_cases hq : n = "p".toList
      · rw [if_pos hq]
        exact notb_of_false hstrip
      · rw [if_neg hq]
    · rw [if_neg hc]
      simp only [nhpL, nhpN, Bool.and_true]
      rw [nhp_estL cont pred cs hqp hp, Bool.and_true]
      have hq : ¬ (n = "p".toList) := fun he => hc (by rw [he]; exact hp)
      rw [if_neg hq]

theorem nhp_estL : ∀ (cont : List Char → Bool)
    (pred : List Char → List (List Char × List Char) → Bool) (cs : List HNode),
    (∀ n a, isHeadTag n = true → pred n a = true) → cont ("p".toList) = true →
    nhpL (hoistFrom cont pred cs) = true
  | cont, pred, [] => fun _ _ => rfl
  | cont, pred, c :: cs => fun hqp hp => by
    rw [hoistFrom, nhpL_append, nhp_estN cont pred c hqp hp,
      nhp_estL cont pred cs hqp hp]
    rfl
end

mutual
theorem ht_fixN : ∀ (q : List Char → Bool) (nd : HNode),
    hasTagL q (fixNode nd) = hasTagN q nd
  | q, .text s => rfl
  | q, .comment s => rfl
  | q, .elem n a cs => by
    rw [fixNode]
    by_cases hl : n = "ul".toList ∨ n = "ol".toList
    · rw [if_pos hl]
      simp only [hasTagL, hasTagN]
      have h1 := ht_gbL q cs
      cases hx : q n <;> cases hy : hasTagL q (goodPart cs) <;>
        cases hz : hasTagL q (badPart cs) <;> simp_all
    · rw [if_neg hl]
      simp only [hasTagL, hasTagN, Bool.or_false]
      rw [ht_fixL q cs]

theorem ht_gbL : ∀ (q : List Char → Bool) (cs : List HNode),
    (hasTagL q (goodPart cs) || hasTagL q (badPart cs)) = hasTagL q cs
  | q, [] => rfl
  | q, c :: cs => by
    rw [goodPart, badPart, hasTagL_append, hasTagL_append, hasTagL]
    have h1 := ht_gbL q cs
    have h2 := ht_fixN q c
    by_cases hb : isBadListChild c = true
    · rw [if_pos hb, if_pos hb]
      simp only [hasTagL, Bool.false_or]
      cases hx : hasTagN q c <;> cases hy : hasTagL q (goodPart cs) <;>
        cases hz : hasTagL q (badPart cs) <;> simp_all
    · rw [if_neg hb, if_neg hb]
      simp only [hasTagL, Bool.or_false]
      cases hx : hasTagN q c <;> cases hy : hasTagL q (goodPart cs) <;>
        cases hz : hasTagL q (badPart cs) <;> simp_all

theorem ht_fixL : ∀ (q : List Char → Bool) (cs : List HNode),
    hasTagL q (fixNodes cs) = hasTagL q cs
  | q, [] => rfl
  | q, c :: cs => by
    rw [fixNodes, hasTagL_append, ht_fixN q c, ht_fixL q cs, hasTagL]
end

mutual
theorem nhp_fixN : ∀ (nd : HNode), nhpN nd = true → nhpL (fixNode nd) = true
  | .text s => fun _ => rfl
  | .comment s => fun _ => rfl
  | .elem n a cs => fun h => by
    rw [nhpN, Bool.and_eq_true] at h
    rw [fixNode]
    by_cases hl : n = "ul".toList ∨ n = "ol".toList
    · rw [if_pos hl]
      rw [nhpL, nhp_badL cs h.2, Bool.and_true, nhpN, nhp_goodL cs h.2,
        Bool.and_true]
      have hq : ¬ (n = "p".toList) := by
        intro he
        cases hl with
        | inl h2 => rw [he] at h2; exact absurd h2 (by decide)
        | inr h2 => rw [he] at h2; exact absurd h2 (by decide)
      rw [if_neg hq]
    · rw [if_neg hl]
      simp only [nhpL, nhpN, Bool.and_true]
      rw [nhp_fixL cs h.2, Bool.and_true]
      by_cases hq : n = "p".toList
      · rw [if_pos hq]
        have h1 := h.1
        rw [if_pos hq] at h1
        rw [ht_fixL]
        exact h1
      · rw [if_neg hq]

theorem nhp_goodL : ∀ (cs : List HNode), nhpL cs = true → nhpL (goodPart cs) = true
  | [] => fun _ => rfl
  | c :: cs => fun h => by
    rw [nhpL, Bool.and_eq_true] at h
    rw [goodPart, nhpL_append, nhp_goodL cs h.2, Bool.and_true]
    by_cases hb : isBadListChild c = true
    · rw [if_pos hb]
      rfl
    · rw [if_neg hb]
      exact nhp_fixN c h.1

theorem nhp_badL : ∀ (cs : List HNode), nhpL cs = true → nhpL (badPart cs) = true
  | [] => fun _ => rfl
  | c :: cs => fun h => by
    rw [nhpL, Bool.and_eq_true] at h
    rw [badPart, nhpL_append, nhp_badL cs h.2, Bool.true_and]
    by_cases hb : isBadListChild c = true
    · rw [if_pos hb]
      exact nhp_fixN c h.1
    · rw [if_neg hb]
      rfl

theorem nhp_fixL : ∀ (cs : List HNode), nhpL cs = true → nhpL (fixNodes cs) = true
  | [] => fun _ => rfl
  | c :: cs => fun h => by
    rw [nhpL, Bool.and_eq_true] at h
    rw [fixNodes, nhpL_append, nhp_fixN c h.1, nhp_fixL cs h.2]
    rfl
end

mutual
theorem ht_ebN : ∀ (q : List Char → Bool) (nd : HNode),
    hasTagL q (ebNode nd) = hasTagN q nd
  | q, .text s => rfl
  | q, .comment s => rfl
  | q, .elem n a cs => by
    rw [ebNode]
    by_cases hp : n = "p".toList
    · rw [if_pos hp]
      simp only [hasTagL, hasTagN]
      rw [hasTagL_reverse]
      have h1 := ht_partL q isButtonPred cs
      cases hx : q n <;> cases hy : hasTagL q (listTagged isButtonPred cs) <;>
        cases hz : hasTagL q (stripTagged isButtonPred cs) <;> simp_all
    · rw [if_neg hp]
      simp only [hasTagL, hasTagN, Bool.or_false]
      rw [ht_ebL q cs]

theorem ht_ebL : ∀ (q : List Char → Bool) (cs : List HNode),
    hasTagL q (extractButtonsFromPs cs) = hasTagL q cs
  | q, [] => rfl
  | q, c :: cs => by
    rw [extractButtonsFromPs, hasTagL_append, ht_ebN q c, ht_ebL q cs, hasTagL]
end

mutual
theorem cnt_ntN : ∀ (t : List Char) (nd : HNode), cntN t (ntNode nd) = cntN t nd
  | t, .text s => rfl
  | t, .comment s => rfl
  | t, .elem n a cs => by
    rw [ntNode, cntN, cntN, cnt_ntL t cs]

theorem cnt_ntL : ∀ (t : List Char) (cs : List HNode), cntL t (ntNodes cs) = cntL t cs
  | t, [] => rfl
  | t, c :: cs => by
    rw [ntNodes, cntL, cntL, cnt_ntN t c, cnt_ntL t cs]
end

theorem cnt_dropLast_text : ∀ (t : List Char) (cs : List HNode) (s s2 : List Char),
    cs.getLast? = some (HNode.text s) →
    cntL t (cs.dropLast ++ [HNode.text s2]) = cntL t cs
  | t, [], s, s2 => fun h => by simp at h
  | t, [c], s, s2 => fun h => by
    rw [List.getLast?_singleton] at h
    injection h with h2
    subst h2
    rfl
  | t, c :: c2 :: cs, s, s2 => fun h => by
    rw [List.getLast?_cons_cons] at h
    show cntN t c + cntL t ((c2 :: cs).dropLast ++ [HNode.text s2]) =
      cntN t c + cntL t (c2 :: cs)
    rw [cnt_dropLast_text t (c2 :: cs) s s2 h]

theorem cnt_stripEdges : ∀ (t : List Char) (cs : List HNode),
    cntL t (stripEdges cs) = cntL t cs := by
  intro t cs
  have hmain : ∀ (cs1 : List HNode), cntL t
      (match cs1.getLast? with
       | some (HNode.text s) => cs1.dropLast ++ [HNode.text (pyRStrip s)]
       | _ => cs1) = cntL t cs1 := by
    intro cs1
    cases hl : cs1.getLast? with
    | none => rfl
    | some nd =>
      cases nd with
      | text s => exact cnt_dropLast_text t cs1 s (pyRStrip s) hl
      | comment s => rfl
      | elem n a cs2 => rfl
  cases cs with
  | nil => exact hmain []
  | cons c rest =>
    cases c with
    | text s =>
      refine Eq.trans (hmain (HNode.text (pyLStrip s) :: rest)) ?_
      rfl
    | comment s => exact hmain _
    | elem n a cs2 => exact hmain _

mutual
theorem cntZero_noHeadN : ∀ (t : List Char) (nd : HNode), isHeadTag t = true →
    hasTagN isHeadTag nd = false → cntN t nd = 0
  | t, .text s => fun _ _ => rfl
  | t, .comment s => fun _ _ => rfl
  | t, .elem n a cs => fun ht h => by
    rw [hasTagN] at h
    rw [cntN, cntZero_noHeadL t cs ht (orb_false_right h)]
    have hn : ¬ (n = t) := fun he => by
      have h2 := orb_false_left h
      rw [he, ht] at h2
      exact absurd h2 (by decide)
    rw [if_neg hn]

theorem cntZero_noHeadL : ∀ (t : List Char) (cs : List HNode), isHeadTag t = true →
    hasTagL isHeadTag cs = false → cntL t cs = 0
  | t, [] => fun _ _ => rfl
  | t, c :: cs => fun ht h => by
    rw [hasTagL] at h
    rw [cntL, cntZero_noHeadN t c ht (orb_false_left h),
      cntZero_noHeadL t cs ht (orb_false_right h)]
end

mutual
theorem cnt_wsN : ∀ (t : List Char) (nd : HNode), isHeadTag t = true →
    nhpN nd = true → cntL t (wsNode nd) = cntN t nd
  | t, .text s => fun _ _ => rfl
  | t, .comment s => fun _ _ => rfl
  | t, .elem n a cs => fun ht h => by
    rw [nhpN, Bool.and_eq_true] at h
    rw [wsNode]
    by_cases hp : n = "p".toList
    · subst hp
      rw [if_pos rfl]
      have h1 := h.1
      rw [if_pos rfl] at h1
      by_cases hlen : (pyStrip (gtNodes (stripEdges (ntNodes (wsNodes cs))))).length < 2
      · rw [if_pos hlen]
        have hz := cntZero_noHeadL t cs ht (notb_true h1)
        rw [cntL, cntN, hz]
        have hn : ¬ ("p".toList = t) := fun he => by
          rw [← he] at ht
          exact absurd ht (by decide)
        rw [if_neg hn]
      · rw [if_neg hlen]
        simp only [cntL, cntN]
        rw [cnt_stripEdges, cnt_ntL, cnt_wsL t cs ht h.2]
        omega
    · rw [if_neg hp]
      simp only [cntL, cntN]
      rw [cnt_wsL t cs ht h.2]
      omega

theorem cnt_wsL : ∀ (t : List Char) (cs : List HNode), isHeadTag t = true →
    nhpL cs = true → cntL t (wsNodes cs) = cntL t cs
  | t, [] => fun _ _ => rfl
  | t, c :: cs => fun ht h => by
    rw [nhpL, Bool.and_eq_true] at h
    rw [wsNodes, cntL_append, cnt_wsN t c ht h.1, cnt_wsL t cs ht h.2, cntL]
end

/-- Tag-equality predicate (to phrase "contains an `h1`" via `hasTagL`). -/
def tagIs (t n : List Char) : Bool := n = t

/-- The marker prefix a level-1 Gutenberg heading block would carry
(`\x7b` denotes the literal brace). -/
def wpHeadingL1 : List Char := "<!-- wp:heading \x7b\"level\":1".toList

mutual
theorem htZero_cntN : ∀ (t : List Char) (nd : HNode), cntN t nd = 0 →
    hasTagN (tagIs t) nd = false
  | t, .text s => fun _ => rfl
  | t, .comment s => fun _ => rfl
  | t, .elem n a cs => fun h => by
    rw [cntN] at h
    have h2 : cntL t cs = 0 := by omega
    have h1 : ¬ (n = t) := fun he => by
      rw [if_pos he] at h
      omega
    rw [hasTagN, htZero_cntL t cs h2]
    have hf : tagIs t n = false := by
      rw [tagIs]
      exact decide_eq_false h1
    rw [hf]
    rfl

theorem htZero_cntL : ∀ (t : List Char) (cs : List HNode), cntL t cs = 0 →
    hasTagL (tagIs t) cs = false
  | t, [] => fun _ => rfl
  | t, c :: cs => fun h => by
    rw [cntL] at h
    rw [hasTagL, htZero_cntN t c (by omega), htZero_cntL t cs (by omega)]
    rfl
end

theorem para_no_h1 : ∀ (parts : List HNode),
    wpHeadingL1.isPrefixOf (paraBlockOf parts) = false := by
  intro parts
  rfl

theorem egb_no_h1 : ∀ (n : List Char) (a : List (List Char × List Char))
    (cs : List HNode), ¬ (n = "h1".toList) →
    wpHeadingL1.isPrefixOf (element_to_gutenberg_block (.elem n a cs)) = false := by
  intro n a cs hn
  rw [element_to_gutenberg_block]
  by_cases hb : isButtonPred n a = true
  · rw [if_pos hb]
    rfl
  · rw [if_neg hb]
    by_cases hp : n = "p".toList
    · rw [if_pos hp]
      rfl
    · rw [if_neg hp]
      by_cases hh : n ∈ headingTags
      · rw [if_pos hh]
        simp only [headingTags, List.mem_cons, List.not_mem_nil, or_false] at hh
        rcases hh with h | h | h | h | h | h
        · exact absurd h hn
        · subst h
          rfl
        · subst h
          rfl
        · subst h
          rfl
        · subst h
          rfl
        · subst h
          rfl
      · rw [if_neg hh]
        by_cases hl : n = "ul".toList ∨ n = "ol".toList
        · rw [if_pos hl]
          rfl
        · rw [if_neg hl]
          by_cases hq : n = "blockquote".toList
          · rw [if_pos hq]
            rfl
          · rw [if_neg hq]
            by_cases hpre : n = "pre".toList
            · rw [if_pos hpre]
              by_cases hcode : hasCodeNodes cs = true
              · rw [if_pos hcode]
                rfl
              · rw [if_neg hcode]
                rfl
            · rw [if_neg hpre]
              by_cases himg : n = "img".toList
              · rw [if_pos himg]
                rfl
              · rw [if_neg himg]
                by_cases hin : n = "strong".toList ∨ n = "em".toList ∨
                    n = "u".toList ∨ n = "a".toList ∨ n = "code".toList
                · rw [if_pos hin]
                  rfl
                · rw [if_neg hin]
                  by_cases hbr : n = "br".toList
                  · rw [if_pos hbr]
                    rfl
                  · rw [if_neg hbr]
                    rfl

theorem walk_no_h1 : ∀ (ns : List HNode) (acc : List HNode),
    hasTagL (tagIs ("h1".toList)) ns = false →
    ∀ b, b ∈ gutenbergWalk acc ns → wpHeadingL1.isPrefixOf b = false
  | [], acc => fun _ b hb => by
    rw [gutenbergWalk] at hb
    by_cases he : acc.isEmpty = true
    · rw [if_pos he] at hb
      exact absurd hb (List.not_mem_nil b)
    · rw [if_neg he] at hb
      rw [List.mem_singleton] at hb
      subst hb
      exact para_no_h1 acc
  | el :: rest, acc => fun h b hb => by
    rw [hasTagL] at h
    have hr := orb_false_right h
    have hn := orb_false_left h
    cases el with
    | text s =>
      rw [gutenbergWalk] at hb
      by_cases hs2 : pyStrip s ≠ []
      · rw [if_pos hs2] at hb
        exact walk_no_h1 rest _ hr b hb
      · rw [if_neg hs2] at hb
        exact walk_no_h1 rest _ hr b hb
    | comment s =>
      rw [gutenbergWalk] at hb
      by_cases hs2 : pyStrip s ≠ []
      · rw [if_pos hs2] at hb
        exact walk_no_h1 rest _ hr b hb
      · rw [if_neg hs2] at hb
        exact walk_no_h1 rest _ hr b hb
    | elem n a cs =>
      have hne : ¬ (n = "h1".toList) := by
        rw [hasTagN] at hn
        have h2 := orb_false_left hn
        rw [tagIs] at h2
        intro he
        rw [he] at h2
        simp at h2
      rw [gutenbergWalk] at hb
      have hflush : ∀ b2, b2 ∈ (if acc.isEmpty then ([] : List (List Char))
          else [paraBlockOf acc]) → wpHeadingL1.isPrefixOf b2 = false := by
        intro b2 hb2
        by_cases he : acc.isEmpty = true
        · rw [if_pos he] at hb2
          exact absurd hb2 (List.not_mem_nil b2)
        · rw [if_neg he] at hb2
          rw [List.mem_singleton] at hb2
          subst hb2
          exact para_no_h1 acc
      have hblock : b ∈ (if acc.isEmpty then ([] : List (List Char))
            else [paraBlockOf acc]) ++
            (if element_to_gutenberg_block (.elem n a cs) ≠ [] then
              element_to_gutenberg_block (.elem n a cs) :: gutenbergWalk [] rest
            else gutenbergWalk [] rest) →
          wpHeadingL1.isPrefixOf b = false := by
        intro hb2
        rw [List.mem_append] at hb2
        cases hb2 with
        | inl h2 => exact hflush b h2
        | inr h2 =>
          by_cases hblk : element_to_gutenberg_block (.elem n a cs) ≠ []
          · rw [if_pos hblk] at h2
            rw [List.mem_cons] at h2
            cases h2 with
            | inl h3 =>
              subst h3
              exact egb_no_h1 n a cs hne
            | inr h3 => exact walk_no_h1 rest [] hr b h3
          · rw [if_neg hblk] at h2
            exact walk_no_h1 rest [] hr b h2
      by_cases hbl : n ∈ blockLevelTags
      · rw [if_pos hbl] at hb
        exact hblock hb
      · rw [if_neg hbl] at hb
        by_cases hbt : getAttr a ("data-is-button".toList) = some ("true".toList)
        · rw [if_pos hbt] at hb
          exact hblock hb
        · rw [if_neg hbt] at hb
          exact walk_no_h1 rest _ hr b hb

theorem blocks_no_h1 (ns : List HNode)
    (h : hasTagL (tagIs ("h1".toList)) ns = false) :
    ∀ b, b ∈ html_to_gutenberg_blocks ns → wpHeadingL1.isPrefixOf b = false := by
  intro b hb
  rw [html_to_gutenberg_blocks] at hb
  refine walk_no_h1 (extractButtonsFromPs ns) [] ?_ b hb
  rw [ht_ebL]
  exact h

theorem gBI_fix (t : List Char) (hs2 : t ≠ "strong".toList) (he : t ≠ "em".toList)
    (hb2 : t ≠ "b".toList) (hi2 : t ≠ "i".toList) : ∀ m, gBI m = t ↔ m = t := by
  intro m
  rw [gBI]
  by_cases hb : m = "b".toList
  · rw [if_pos hb]
    constructor
    · intro h
      exact absurd h.symm hs2
    · intro h
      rw [h] at hb
      exact absurd hb hb2
  · rw [if_neg hb]
    by_cases hi : m = "i".toList
    · rw [if_pos hi]
      constructor
      · intro h
        exact absurd h.symm he
      · intro h
        rw [h] at hi
        exact absurd hi hi2
    · rw [if_neg hi]

/-- C3: heading demotion invariant — cleaning renames every `h1` to `h2` and
never deletes a heading: the cleaned tree has no `h1` element, its `h2` count
is the sum of the input's `h1` and `h2` counts, and no emitted Gutenberg block
carries the level-1 heading marker.  The only assumption is the parser
invariant that `br` elements are childless. -/
theorem heading_demotion (ns : List HNode) (hwf : wfBrL ns = true) :
    cntL ("h1".toList) (clean_html_tree ns) = 0 ∧
    cntL ("h2".toList) (clean_html_tree ns) =
      cntL ("h1".toList) ns + cntL ("h2".toList) ns ∧
    ∀ b, b ∈ html_to_gutenberg_blocks (clean_html_tree ns) →
      wpHeadingL1.isPrefixOf b = false := by
  have hnhp : nhpL (fixNodes
      (hoistFrom (fun n => n ∈ headingTags) isImgPred
        (hoistFrom (fun n => n = "p".toList) isImgPred
          (hoistFrom (fun n => n = "p".toList) isHeadingPred
            (caNodes (rnNodes gH1 (rnNodes gBI
              (udNodes (liNodes (brNodes (mbNodes (rcNodes ns)))))))))))) = true := by
    apply nhp_fixL
    apply nhp_hoistL
    apply nhp_hoistL
    apply nhp_estL
    · intro n a hq
      exact hq
    · rfl
  have hwf2 : wfBrL (mbNodes (rcNodes ns)) = true := wf_mbL _ (wf_rcL _ hwf)
  have hcnt1 : cntL ("h1".toList) (clean_html_tree ns) = 0 := by
    rw [clean_html_tree, cnt_wsL ("h1".toList) _ (by decide) hnhp, cnt_fixL,
      cnt_hoistL, cnt_hoistL, cnt_hoistL, cnt_caL ("h1".toList) _ (by decide),
      cnt_h1L]
  have hcnt2 : cntL ("h2".toList) (clean_html_tree ns) =
      cntL ("h1".toList) ns + cntL ("h2".toList) ns := by
    rw [clean_html_tree, cnt_wsL ("h2".toList) _ (by decide) hnhp, cnt_fixL,
      cnt_hoistL, cnt_hoistL, cnt_hoistL, cnt_caL ("h2".toList) _ (by decide),
      cnt_h2L,
      cnt_rnL gBI ("h1".toList) _
        (gBI_fix _ (by decide) (by decide) (by decide) (by decide)),
      cnt_rnL gBI ("h2".toList) _
        (gBI_fix _ (by decide) (by decide) (by decide) (by decide)),
      cnt_udL ("h1".toList) _ (by decide), cnt_udL ("h2".toList) _ (by decide),
      cnt_liL, cnt_liL,
      cnt_brL ("h1".toList) _ (by decide) hwf2,
      cnt_brL ("h2".toList) _ (by decide) hwf2,
      cnt_mbL, cnt_mbL, cnt_rcL, cnt_rcL]
  refine ⟨hcnt1, hcnt2, ?_⟩
  intro b hb
  exact blocks_no_h1 _ (htZero_cntL _ _ hcnt1) b hb

/-- A concrete fragment with one `h1`, one `h2` and a paragraph. -/
def hdCex : List HNode :=
  [HNode.elem ("h1".toList) [] [HNode.text ("Big Title".toList)],
   HNode.elem ("h2".toList) [] [HNode.text ("Section".toList)],
   HNode.elem ("p".toList) [] [HNode.text ("Hello world".toList)]]

/-- Witness for C3 at a concrete tree. -/
theorem heading_demotion_witness :
    wfBrL hdCex = true ∧
    (cntL ("h1".toList) (clean_html_tree hdCex) = 0 ∧
     cntL ("h2".toList) (clean_html_tree hdCex) =
       cntL ("h1".toList) hdCex + cntL ("h2".toList) hdCex ∧
     ∀ b, b ∈ html_to_gutenberg_blocks (clean_html_tree hdCex) →
       wpHeadingL1.isPrefixOf b = false) :=
  ⟨by decide, heading_demotion hdCex (by decide)⟩

/-! ## C7: `clean_html` as a string transform

The source's `clean_html` is string → string: encoding repair, two regex
rewrites whose patterns require a `<`, a `BeautifulSoup` parse (which decodes
character references), the tree phase modelled by `clean_html_tree`,
re-serialization, `.strip()`, and two final regexes whose patterns also
require a `<`.  The model below covers markup-free fragments (no `<` in the
input): there the regex steps match nothing and the parse yields a single
text node with character references decoded. -/

/-- STEP 1 of `clean_html`: the seven chained single-character
`str.replace` encoding repairs (curly quotes, dashes, non-breaking space). -/
def fixEncChar (c : Char) : Char :=
  if c = '’' then '\''
  else if c = '‘' then '\''
  else if c = '“' then '"'
  else if c = '”' then '"'
  else if c = '–' then '-'
  else if c = '—' then '-'
  else if c = ' ' then ' '
  else c

/-- The encoding-repair pass over a whole string. -/
def fixEncoding (s : List Char) : List Char := s.map fixEncChar

/-- Decoding of the tail after an ampersand: the named references relevant
here (`lt`, `gt`, `amp`, `quot`, `nbsp`), falling back to a literal ampersand
(`go` is the continuation decoding the remainder). -/
def decodeAmpTail (go : List Char → List Char) (c : Char) : List Char → List Char
  | c1 :: c2 :: c3 :: r3 =>
    if c1 = 'l' ∧ c2 = 't' ∧ c3 = ';' then '<' :: go r3
    else if c1 = 'g' ∧ c2 = 't' ∧ c3 = ';' then '>' :: go r3
    else
      match r3 with
      | c4 :: r4 =>
        if c1 = 'a' ∧ c2 = 'm' ∧ c3 = 'p' ∧ c4 = ';' then '&' :: go r4
        else
          match r4 with
          | c5 :: r5 =>
            if c1 = 'q' ∧ c2 = 'u' ∧ c3 = 'o' ∧ c4 = 't' ∧ c5 = ';' then '"' :: go r5
            else if c1 = 'n' ∧ c2 = 'b' ∧ c3 = 's' ∧ c4 = 'p' ∧ c5 = ';' then
              '\u00a0' :: go r5
            else c :: go (c1 :: c2 :: c3 :: c4 :: c5 :: r5)
          | [] => c :: go [c1, c2, c3, c4]
      | [] => c :: go [c1, c2, c3]
  | r => c :: go r

/-- One decoding step: a non-ampersand character is copied, an ampersand is
handed to the reference table. -/
def decodeStep (go : List Char → List Char) : List Char → List Char
  | [] => []
  | c :: r => if c = '&' then decodeAmpTail go c r else c :: go r

/-- Fuelled iteration of `decodeStep`; every step consumes at least one
character, so `length` fuel suffices. -/
def decodeF : Nat → List Char → List Char
  | 0, l => l
  | f+1, l => decodeStep (decodeF f) l

/-- Character-reference decoding done by `html.parser`
(`convert_charrefs=True`) at parse time, for the named references this
development meets: the three the serializer can emit plus `&quot;` and
`&nbsp;`. -/
def decode (s : List Char) : List Char := decodeF s.length s

/-- `clean_html` on a markup-free fragment: encoding repair, parse into a
single text node with references decoded (the regex steps of 1.5/2 match
nothing without `<`), the tree phase, serialization and the final strip (the
closing `<p>`-whitespace regexes match nothing without `<`). -/
def clean_html (s : List Char) : List Char :=
  pyStrip (serializeNodes (clean_html_tree [HNode.text (decode (fixEncoding s))]))

theorem decodeStep_cons (go : List Char → List Char) (c : Char) (r : List Char)
    (hc : c ≠ '&') : decodeStep go (c :: r) = c :: go r := by
  show (if c = '&' then decodeAmpTail go c r else c :: go r) = c :: go r
  rw [if_neg hc]

theorem decodeStep_ampRef (go : List Char → List Char) (rest : List Char) :
    decodeStep go ('&' :: 'a' :: 'm' :: 'p' :: ';' :: rest) = '&' :: go rest := rfl

theorem decodeStep_ltRef (go : List Char → List Char) (rest : List Char) :
    decodeStep go ('&' :: 'l' :: 't' :: ';' :: rest) = '<' :: go rest := rfl

theorem decodeStep_gtRef (go : List Char → List Char) (rest : List Char) :
    decodeStep go ('&' :: 'g' :: 't' :: ';' :: rest) = '>' :: go rest := rfl

theorem decodeAmpTail_congr (go1 go2 : List Char → List Char) (c : Char) :
    ∀ (r : List Char), (∀ x : List Char, x.length ≤ r.length → go1 x = go2 x) →
    decodeAmpTail go1 c r = decodeAmpTail go2 c r
  | [], h => by
    show c :: go1 [] = c :: go2 []
    rw [h [] (by simp)]
  | [c1], h => by
    show c :: go1 [c1] = c :: go2 [c1]
    rw [h [c1] (by simp)]
  | [c1, c2], h => by
    show c :: go1 [c1, c2] = c :: go2 [c1, c2]
    rw [h [c1, c2] (by simp)]
  | c1 :: c2 :: c3 :: r3, h => by
    have h3 : r3.length ≤ (c1 :: c2 :: c3 :: r3).length := by
      simp [List.length_cons]
      omega
    by_cases hlt : c1 = 'l' ∧ c2 = 't' ∧ c3 = ';'
    · show (if c1 = 'l' ∧ c2 = 't' ∧ c3 = ';' then '<' :: go1 r3 else _) =
        (if c1 = 'l' ∧ c2 = 't' ∧ c3 = ';' then '<' :: go2 r3 else _)
      rw [if_pos hlt, if_pos hlt, h r3 h3]
    · show (if c1 = 'l' ∧ c2 = 't' ∧ c3 = ';' then '<' :: go1 r3 else _) =
        (if c1 = 'l' ∧ c2 = 't' ∧ c3 = ';' then '<' :: go2 r3 else _)
      rw [if_neg hlt, if_neg hlt]
      by_cases hgt : c1 = 'g' ∧ c2 = 't' ∧ c3 = ';'
      · show (if c1 = 'g' ∧ c2 = 't' ∧ c3 = ';' then '>' :: go1 r3 else _) =
          (if c1 = 'g' ∧ c2 = 't' ∧ c3 = ';' then '>' :: go2 r3 else _)
        rw [if_pos hgt, if_pos hgt, h r3 h3]
      · show (if c1 = 'g' ∧ c2 = 't' ∧ c3 = ';' then '>' :: go1 r3 else _) =
          (if c1 = 'g' ∧ c2 = 't' ∧ c3 = ';' then '>' :: go2 r3 else _)
        rw [if_neg hgt, if_neg hgt]
        cases r3 with
        | nil =>
          show c :: go1 [c1, c2, c3] = c :: go2 [c1, c2, c3]
          rw [h [c1, c2, c3] (by simp)]
        | cons c4 r4 =>
          have h4 : r4.length ≤ (c1 :: c2 :: c3 :: c4 :: r4).length := by
            simp [List.length_cons]
            omega
          by_cases hamp : c1 = 'a' ∧ c2 = 'm' ∧ c3 = 'p' ∧ c4 = ';'
          · show (if c1 = 'a' ∧ c2 = 'm' ∧ c3 = 'p' ∧ c4 = ';' then '&' :: go1 r4 else _) =
              (if c1 = 'a' ∧ c2 = 'm' ∧ c3 = 'p' ∧ c4 = ';' then '&' :: go2 r4 else _)
            rw [if_pos hamp, if_pos hamp, h r4 h4]
          · show (if c1 = 'a' ∧ c2 = 'm' ∧ c3 = 'p' ∧ c4 = ';' then '&' :: go1 r4 else _) =
              (if c1 = 'a' ∧ c2 = 'm' ∧ c3 = 'p' ∧ c4 = ';' then '&' :: go2 r4 else _)
            rw [if_neg hamp, if_neg hamp]
            cases r4 with
            | nil =>
              show c :: go1 [c1, c2, c3, c4] = c :: go2 [c1, c2, c3, c4]
              rw [h [c1, c2, c3, c4] (by simp)]
            | cons c5 r5 =>
              have h5 : r5.length ≤ (c1 :: c2 :: c3 :: c4 :: c5 :: r5).length := by
                simp [List.length_cons]
                omega
              have h5f : (c1 :: c2 :: c3 :: c4 :: c5 :: r5).length ≤
                  (c1 :: c2 :: c3 :: c4 :: c5 :: r5).length := le_refl _
              by_cases hq : c1 = 'q' ∧ c2 = 'u' ∧ c3 = 'o' ∧ c4 = 't' ∧ c5 = ';'
              · show (if c1 = 'q' ∧ c2 = 'u' ∧ c3 = 'o' ∧ c4 = 't' ∧ c5 = ';' then
                    '"' :: go1 r5 else _) =
                  (if c1 = 'q' ∧ c2 = 'u' ∧ c3 = 'o' ∧ c4 = 't' ∧ c5 = ';' then
                    '"' :: go2 r5 else _)
                rw [if_pos hq, if_pos hq, h r5 h5]
              · show (if c1 = 'q' ∧ c2 = 'u' ∧ c3 = 'o' ∧ c4 = 't' ∧ c5 = ';' then
                    '"' :: go1 r5 else _) =
                  (if c1 = 'q' ∧ c2 = 'u' ∧ c3 = 'o' ∧ c4 = 't' ∧ c5 = ';' then
                    '"' :: go2 r5 else _)
                rw [if_neg hq, if_neg hq]
                by_cases hn : c1 = 'n' ∧ c2 = 'b' ∧ c3 = 's' ∧ c4 = 'p' ∧ c5 = ';'
                · show (if c1 = 'n' ∧ c2 = 'b' ∧ c3 = 's' ∧ c4 = 'p' ∧ c5 = ';' then
                      '\u00a0' :: go1 r5 else c :: go1 (c1 :: c2 :: c3 :: c4 :: c5 :: r5)) =
                    (if c1 = 'n' ∧ c2 = 'b' ∧ c3 = 's' ∧ c4 = 'p' ∧ c5 = ';' then
                      '\u00a0' :: go2 r5 else c :: go2 (c1 :: c2 :: c3 :: c4 :: c5 :: r5))
                  rw [if_pos hn, if_pos hn, h r5 h5]
                · show (if c1 = 'n' ∧ c2 = 'b' ∧ c3 = 's' ∧ c4 = 'p' ∧ c5 = ';' then
                      '\u00a0' :: go1 r5 else c :: go1 (c1 :: c2 :: c3 :: c4 :: c5 :: r5)) =
                    (if c1 = 'n' ∧ c2 = 'b' ∧ c3 = 's' ∧ c4 = 'p' ∧ c5 = ';' then
                      '\u00a0' :: go2 r5 else c :: go2 (c1 :: c2 :: c3 :: c4 :: c5 :: r5))
                  rw [if_neg hn, if_neg hn, h _ h5f]

theorem decodeStep_congr (go1 go2 : List Char → List Char) (l : List Char)
    (h : ∀ x : List Char, x.length < l.length → go1 x = go2 x) :
    decodeStep go1 l = decodeStep go2 l := by
  cases l with
  | nil => rfl
  | cons c r =>
    have hr : ∀ x : List Char, x.length ≤ r.length → go1 x = go2 x := by
      intro x hx
      apply h
      simp only [List.length_cons]
      omega
    by_cases hc : c = '&'
    · show (if c = '&' then decodeAmpTail go1 c r else c :: go1 r) =
        (if c = '&' then decodeAmpTail go2 c r else c :: go2 r)
      rw [if_pos hc, if_pos hc, decodeAmpTail_congr go1 go2 c r hr]
    · show (if c = '&' then decodeAmpTail go1 c r else c :: go1 r) =
        (if c = '&' then decodeAmpTail go2 c r else c :: go2 r)
      rw [if_neg hc, if_neg hc, hr r (le_refl _)]

theorem decodeF_nil : ∀ (f : Nat), decodeF f [] = [] := by
  intro f
  cases f <;> rfl

theorem decodeF_congr : ∀ (f1 f2 : Nat) (l : List Char), l.length ≤ f1 →
    l.length ≤ f2 → decodeF f1 l = decodeF f2 l
  | f1, f2, [] => fun _ _ => by rw [decodeF_nil, decodeF_nil]
  | 0, f2, c :: r => fun h1 _ => by
    exfalso
    simp only [List.length_cons] at h1
    omega
  | f1 + 1, 0, c :: r => fun _ h2 => by
    exfalso
    simp only [List.length_cons] at h2
    omega
  | f1 + 1, f2 + 1, c :: r => fun h1 h2 => by
    show decodeStep (decodeF f1) (c :: r) = decodeStep (decodeF f2) (c :: r)
    apply decodeStep_congr
    intro x hx
    simp only [List.length_cons] at h1 h2 hx
    exact decodeF_congr f1 f2 x (by omega) (by omega)

theorem decode_cons (c : Char) (r : List Char) (hc : c ≠ '&') :
    decode (c :: r) = c :: decode r := by
  show decodeStep (decodeF r.length) (c :: r) = c :: decode r
  rw [decodeStep_cons _ _ _ hc]
  rfl

theorem decode_amp (rest : List Char) :
    decode ('&' :: 'a' :: 'm' :: 'p' :: ';' :: rest) = '&' :: decode rest := by
  show decodeStep (decodeF (rest.length + 4)) ('&' :: 'a' :: 'm' :: 'p' :: ';' :: rest) =
    '&' :: decode rest
  rw [decodeStep_ampRef]
  rw [decodeF_congr (rest.length + 4) rest.length rest (by omega) (by omega)]
  rfl

theorem decode_lt (rest : List Char) :
    decode ('&' :: 'l' :: 't' :: ';' :: rest) = '<' :: decode rest := by
  show decodeStep (decodeF (rest.length + 3)) ('&' :: 'l' :: 't' :: ';' :: rest) =
    '<' :: decode rest
  rw [decodeStep_ltRef]
  rw [decodeF_congr (rest.length + 3) rest.length rest (by omega) (by omega)]
  rfl

theorem decode_gt (rest : List Char) :
    decode ('&' :: 'g' :: 't' :: ';' :: rest) = '>' :: decode rest := by
  show decodeStep (decodeF (rest.length + 3)) ('&' :: 'g' :: 't' :: ';' :: rest) =
    '>' :: decode rest
  rw [decodeStep_gtRef]
  rw [decodeF_congr (rest.length + 3) rest.length rest (by omega) (by omega)]
  rfl

theorem decode_ampFree : ∀ (r : List Char), '&' ∉ r → decode r = r
  | [] => fun _ => rfl
  | c :: r => fun h => by
    have hc : c ≠ '&' := fun he => h (he ▸ List.mem_cons_self c r)
    have hr : '&' ∉ r := fun hm => h (List.mem_cons_of_mem c hm)
    rw [decode_cons c r hc, decode_ampFree r hr]

theorem decode_escape : ∀ (d : List Char), decode (escapeXml d) = d
  | [] => rfl
  | c :: d => by
    by_cases h1 : c = '&'
    · subst h1
      have he : escapeXml ('&' :: d) = '&' :: 'a' :: 'm' :: 'p' :: ';' :: escapeXml d :=
        rfl
      rw [he, decode_amp, decode_escape d]
    · by_cases h2 : c = '<'
      · subst h2
        have he : escapeXml ('<' :: d) = '&' :: 'l' :: 't' :: ';' :: escapeXml d :=
          rfl
        rw [he, decode_lt, decode_escape d]
      · by_cases h3 : c = '>'
        · subst h3
          have he : escapeXml ('>' :: d) = '&' :: 'g' :: 't' :: ';' :: escapeXml d :=
            rfl
          rw [he, decode_gt, decode_escape d]
        · have he : escapeXml (c :: d) = c :: escapeXml d := by
            show escapeXmlChar c ++ escapeXml d = c :: escapeXml d
            rw [escapeXmlChar, if_neg h1, if_neg h2, if_neg h3]
            rfl
          rw [he, decode_cons c _ h1, decode_escape d]

theorem escapeXmlChar_ne_nil (c : Char) : escapeXmlChar c ≠ [] := by
  rw [escapeXmlChar]
  split_ifs <;> simp

theorem ser_text : ∀ (d : List Char),
    serializeNodes (clean_html_tree [HNode.text d]) = escapeXml d := by
  intro d
  show serializeNodes [HNode.text d] = escapeXml d
  rw [serializeNodes, serializeNodes, serializeNode, List.append_nil]

theorem pyRStrip_single (c : Char) : pyRStrip [c] = if isPySpace c then [] else [c] :=
  rfl

theorem pyRStrip_cons_nil (c : Char) (r : List Char) (h : pyRStrip r = []) :
    pyRStrip (c :: r) = if isPySpace c then [] else [c] := by
  rw [pyRStrip, h]

theorem pyRStrip_cons_cons (c : Char) (r : List Char) (d : Char) (t : List Char)
    (h : pyRStrip r = d :: t) : pyRStrip (c :: r) = c :: d :: t := by
  rw [pyRStrip, h]

theorem pyRStrip_append_nil : ∀ (x y : List Char), pyRStrip y = [] →
    pyRStrip (x ++ y) = pyRStrip x
  | [], y => fun h => by
    rw [List.nil_append, h]
    rfl
  | c :: x, y => fun h => by
    rw [List.cons_append, pyRStrip, pyRStrip_append_nil x y h, pyRStrip]

theorem pyRStrip_append_pos : ∀ (x y : List Char) (d : Char) (t : List Char),
    pyRStrip y = d :: t → pyRStrip (x ++ y) = x ++ d :: t
  | [], y, d, t => fun h => by
    rw [List.nil_append, h, List.nil_append]
  | c :: x, y, d, t => fun h => by
    rw [List.cons_append, pyRStrip, pyRStrip_append_pos x y d t h]
    cases hx : x ++ d :: t with
    | nil => exact absurd hx (by simp)
    | cons e es =>
      rw [List.cons_append, hx]

theorem pyLStrip_escape : ∀ (d : List Char),
    pyLStrip (escapeXml d) = escapeXml (pyLStrip d)
  | [] => rfl
  | c :: d => by
    by_cases hsp : isPySpace c = true
    · have h1 : c ≠ '&' := fun he => by
        rw [he] at hsp
        exact absurd hsp (by decide)
      have h2 : c ≠ '<' := fun he => by
        rw [he] at hsp
        exact absurd hsp (by decide)
      have h3 : c ≠ '>' := fun he => by
        rw [he] at hsp
        exact absurd hsp (by decide)
      have hesc : escapeXml (c :: d) = c :: escapeXml d := by
        show escapeXmlChar c ++ escapeXml d = c :: escapeXml d
        rw [escapeXmlChar, if_neg h1, if_neg h2, if_neg h3]
        rfl
      rw [hesc]
      have hL1 : pyLStrip (c :: escapeXml d) = pyLStrip (escapeXml d) := by
        rw [pyLStrip, pyLStrip, List.dropWhile_cons, if_pos hsp]
      have hL2 : pyLStrip (c :: d) = pyLStrip d := by
        rw [pyLStrip, pyLStrip, List.dropWhile_cons, if_pos hsp]
      rw [hL1, hL2, pyLStrip_escape d]
    · have hL2 : pyLStrip (c :: d) = c :: d := by
        rw [pyLStrip, List.dropWhile_cons, if_neg hsp]
      rw [hL2]
      by_cases h1 : c = '&'
      · subst h1
        have hesc : escapeXml ('&' :: d) =
            '&' :: 'a' :: 'm' :: 'p' :: ';' :: escapeXml d := rfl
        rw [hesc, pyLStrip, List.dropWhile_cons, if_neg (by decide)]
      · by_cases h2 : c = '<'
        · subst h2
          have hesc : escapeXml ('<' :: d) =
              '&' :: 'l' :: 't' :: ';' :: escapeXml d := rfl
          rw [hesc, pyLStrip, List.dropWhile_cons, if_neg (by decide)]
        · by_cases h3 : c = '>'
          · subst h3
            have hesc : escapeXml ('>' :: d) =
                '&' :: 'g' :: 't' :: ';' :: escapeXml d := rfl
            rw [hesc, pyLStrip, List.dropWhile_cons, if_neg (by decide)]
          · have hesc : escapeXml (c :: d) = c :: escapeXml d := by
              show escapeXmlChar c ++ escapeXml d = c :: escapeXml d
              rw [escapeXmlChar, if_neg h1, if_neg h2, if_neg h3]
              rfl
            rw [hesc, pyLStrip, List.dropWhile_cons, if_neg hsp]

theorem pyRStrip_escape : ∀ (d : List Char),
    pyRStrip (escapeXml d) = escapeXml (pyRStrip d)
  | [] => rfl
  | c :: d => by
    have hE : escapeXml (c :: d) = escapeXmlChar c ++ escapeXml d := rfl
    cases hrd : pyRStrip d with
    | nil =>
      have hnil : pyRStrip (escapeXml d) = [] := by
        rw [pyRStrip_escape d, hrd]
        rfl
      rw [hE, pyRStrip_append_nil _ _ hnil, pyRStrip_cons_nil c d hrd]
      by_cases hsp : isPySpace c = true
      · rw [if_pos hsp]
        have h1 : c ≠ '&' := fun he => by
          rw [he] at hsp
          exact absurd hsp (by decide)
        have h2 : c ≠ '<' := fun he => by
          rw [he] at hsp
          exact absurd hsp (by decide)
        have h3 : c ≠ '>' := fun he => by
          rw [he] at hsp
          exact absurd hsp (by decide)
        rw [escapeXmlChar, if_neg h1, if_neg h2, if_neg h3, pyRStrip_single,
          if_pos hsp]
        rfl
      · rw [if_neg hsp]
        by_cases h1 : c = '&'
        · subst h1
          decide
        · by_cases h2 : c = '<'
          · subst h2
            decide
          · by_cases h3 : c = '>'
            · subst h3
              decide
            · rw [escapeXmlChar, if_neg h1, if_neg h2, if_neg h3, pyRStrip_single,
                if_neg hsp]
              show [c] = escapeXmlChar c ++ []
              rw [escapeXmlChar, if_neg h1, if_neg h2, if_neg h3]
              rfl
    | cons e t =>
      have hc1 : pyRStrip (escapeXml d) = escapeXml (e :: t) := by
        rw [pyRStrip_escape d, hrd]
      cases hsh : escapeXmlChar e with
      | nil => exact absurd hsh (escapeXmlChar_ne_nil e)
      | cons f fs =>
        have hc2 : pyRStrip (escapeXml d) = f :: (fs ++ escapeXml t) := by
          rw [hc1]
          show escapeXmlChar e ++ escapeXml t = f :: (fs ++ escapeXml t)
          rw [hsh]
          rfl
        rw [hE, pyRStrip_append_pos _ _ _ _ hc2, pyRStrip_cons_cons c d e t hrd]
        show escapeXmlChar c ++ f :: (fs ++ escapeXml t) =
          escapeXmlChar c ++ (escapeXmlChar e ++ escapeXml t)
        rw [hsh]
        rfl

theorem pyStrip_escape (d : List Char) :
    pyStrip (escapeXml d) = escapeXml (pyStrip d) := by
  rw [pyStrip, pyStrip, pyLStrip_escape, pyRStrip_escape]

theorem pyLStrip_idem (l : List Char) : pyLStrip (pyLStrip l) = pyLStrip l := by
  induction l with
  | nil => rfl
  | cons c r ih =>
    by_cases hsp : isPySpace c = true
    · have h1 : pyLStrip (c :: r) = pyLStrip r := by
        rw [pyLStrip, pyLStrip, List.dropWhile_cons, if_pos hsp]
      rw [h1]
      exact ih
    · have h1 : pyLStrip (c :: r) = c :: r := by
        rw [pyLStrip, List.dropWhile_cons, if_neg hsp]
      rw [h1]
      exact h1

theorem pyRStrip_idem : ∀ (l : List Char), pyRStrip (pyRStrip l) = pyRStrip l
  | [] => rfl
  | c :: r => by
    cases hrd : pyRStrip r with
    | nil =>
      rw [pyRStrip_cons_nil c r hrd]
      by_cases hsp : isPySpace c = true
      · rw [if_pos hsp]
        rfl
      · rw [if_neg hsp, pyRStrip_single, if_neg hsp]
    | cons e t =>
      rw [pyRStrip_cons_cons c r e t hrd]
      have h2 : pyRStrip (e :: t) = e :: t := by
        have h3 := pyRStrip_idem r
        rw [hrd] at h3
        exact h3
      rw [pyRStrip_cons_cons c (e :: t) e t h2]

theorem dropWhile_length_le (p : Char → Bool) : ∀ (l : List Char),
    (l.dropWhile p).length ≤ l.length
  | [] => le_refl _
  | c :: r => by
    rw [List.dropWhile_cons]
    by_cases hp : p c = true
    · rw [if_pos hp]
      have h2 := dropWhile_length_le p r
      simp only [List.length_cons]
      omega
    · rw [if_neg hp]

theorem pyLStrip_fix : ∀ (l : List Char), pyLStrip l = l →
    pyLStrip (pyRStrip l) = pyRStrip l := by
  intro l h
  cases l with
  | nil => rfl
  | cons c r =>
    have hcn : ¬ (isPySpace c = true) := by
      intro hsp
      rw [pyLStrip, List.dropWhile_cons, if_pos hsp] at h
      have hl := congrArg List.length h
      have hle := dropWhile_length_le isPySpace r
      simp only [List.length_cons] at hl
      omega
    cases hrd : pyRStrip r with
    | nil =>
      rw [pyRStrip_cons_nil c r hrd, if_neg hcn, pyLStrip, List.dropWhile_cons,
        if_neg hcn]
    | cons e t =>
      rw [pyRStrip_cons_cons c r e t hrd, pyLStrip, List.dropWhile_cons, if_neg hcn]

theorem pyStrip_idem (l : List Char) : pyStrip (pyStrip l) = pyStrip l := by
  simp only [pyStrip]
  rw [pyLStrip_fix (pyLStrip l) (pyLStrip_idem l), pyRStrip_idem]

theorem mem_pyRStrip : ∀ {c : Char} (l : List Char), c ∈ pyRStrip l → c ∈ l
  | c, [], h => h
  | c, x :: r, h => by
    cases hrd : pyRStrip r with
    | nil =>
      rw [pyRStrip_cons_nil x r hrd] at h
      by_cases hsp : isPySpace x = true
      · rw [if_pos hsp] at h
        exact absurd h (List.not_mem_nil c)
      · rw [if_neg hsp] at h
        rw [List.mem_singleton] at h
        subst h
        exact List.mem_cons_self c r
    | cons e t =>
      rw [pyRStrip_cons_cons x r e t hrd] at h
      rw [List.mem_cons] at h
      cases h with
      | inl h2 =>
        subst h2
        exact List.mem_cons_self c r
      | inr h2 =>
        have h3 : c ∈ r := mem_pyRStrip r (by rw [hrd]; exact h2)
        exact List.mem_cons_of_mem x h3

theorem mem_pyStrip {c : Char} (l : List Char) (h : c ∈ pyStrip l) : c ∈ l := by
  rw [pyStrip] at h
  have h2 := mem_pyRStrip (pyLStrip l) h
  rw [pyLStrip] at h2
  exact List.Sublist.mem h2 (List.dropWhile_sublist _)

theorem fixEncChar_idem (c : Char) : fixEncChar (fixEncChar c) = fixEncChar c := by
  by_cases h1 : c = '’'
  · subst h1
    decide
  · by_cases h2 : c = '‘'
    · subst h2
      decide
    · by_cases h3 : c = '“'
      · subst h3
        decide
      · by_cases h4 : c = '”'
        · subst h4
          decide
        · by_cases h5 : c = '–'
          · subst h5
            decide
          · by_cases h6 : c = '—'
            · subst h6
              decide
            · by_cases h7 : c = ' '
              · subst h7
                decide
              · have hfix : fixEncChar c = c := by
                  rw [fixEncChar, if_neg h1, if_neg h2, if_neg h3, if_neg h4,
                    if_neg h5, if_neg h6, if_neg h7]
                rw [hfix]
                exact hfix

theorem fixEncoding_fixed : ∀ (l : List Char), (∀ c ∈ l, fixEncChar c = c) →
    fixEncoding l = l
  | [] => fun _ => rfl
  | c :: r => fun h => by
    show fixEncChar c :: fixEncoding r = c :: r
    rw [h c (List.mem_cons_self c r),
      fixEncoding_fixed r (fun x hx => h x (List.mem_cons_of_mem c hx))]

theorem fixEnc_fixed_chars (s : List Char) : ∀ c ∈ fixEncoding s, fixEncChar c = c := by
  intro c hc
  rw [fixEncoding, List.mem_map] at hc
  obtain ⟨x, hx, he⟩ := hc
  rw [← he]
  exact fixEncChar_idem x

theorem escape_fixed_chars (d : List Char) (hd : ∀ c ∈ d, fixEncChar c = c) :
    ∀ c ∈ escapeXml d, fixEncChar c = c := by
  intro c hc
  rw [escapeXml, List.mem_flatMap] at hc
  obtain ⟨x, hx, hcx⟩ := hc
  rw [escapeXmlChar] at hcx
  split_ifs at hcx with h1 h2 h3
  · have he : ("&amp;".toList : List Char) = ['&', 'a', 'm', 'p', ';'] := rfl
    rw [he] at hcx
    simp only [List.mem_cons, List.not_mem_nil, or_false] at hcx
    rcases hcx with rfl | rfl | rfl | rfl | rfl <;> decide
  · have he : ("&lt;".toList : List Char) = ['&', 'l', 't', ';'] := rfl
    rw [he] at hcx
    simp only [List.mem_cons, List.not_mem_nil, or_false] at hcx
    rcases hcx with rfl | rfl | rfl | rfl <;> decide
  · have he : ("&gt;".toList : List Char) = ['&', 'g', 't', ';'] := rfl
    rw [he] at hcx
    simp only [List.mem_cons, List.not_mem_nil, or_false] at hcx
    rcases hcx with rfl | rfl | rfl | rfl <;> decide
  · rw [List.mem_singleton] at hcx
    subst hcx
    exact hd _ hx

theorem fixEncChar_amp (x : Char) (he : fixEncChar x = '&') : x = '&' := by
  rw [fixEncChar] at he
  split_ifs at he <;> first | exact absurd he (by decide) | exact he

theorem amp_not_fixEnc (s : List Char) (h : '&' ∉ s) : '&' ∉ fixEncoding s := by
  intro hm
  rw [fixEncoding, List.mem_map] at hm
  obtain ⟨x, hx, he⟩ := hm
  have hxa := fixEncChar_amp x he
  rw [hxa] at hx
  exact h hx

/-- C7 counterexample: normalization is not idempotent.  On `"a&nbsp;b"` the
first pass decodes the reference to a literal non-breaking space at parse
time (after the encoding-repair string step has already run, and the
serializer leaves the character as is), so the second pass's encoding repair
turns it into a plain space and the outputs differ. -/
theorem clean_html_not_idem :
    clean_html (clean_html ("a&nbsp;b".toList)) ≠ clean_html ("a&nbsp;b".toList) := by
  decide

/-- C7 amended: on fragments free of markup and character references (no `<`
and no `&`, the fragments on which this model is exactly the source's
`clean_html`), one application is a fixed point — `clean_html` reduces to
encoding repair plus strip, and both are idempotent. -/
theorem clean_html_idem_amended (s : List Char) (hLt : '<' ∉ s) (hAmp : '&' ∉ s) :
    clean_html (clean_html s) = clean_html s := by
  have hd0 : decode (fixEncoding s) = fixEncoding s :=
    decode_ampFree _ (amp_not_fixEnc s hAmp)
  have h1 : clean_html s = escapeXml (pyStrip (fixEncoding s)) := by
    rw [clean_html, ser_text, hd0, pyStrip_escape]
  have hfix1 : ∀ c ∈ pyStrip (fixEncoding s), fixEncChar c = c :=
    fun c hc => fixEnc_fixed_chars s c (mem_pyStrip _ hc)
  have hfix2 : ∀ c ∈ escapeXml (pyStrip (fixEncoding s)), fixEncChar c = c :=
    escape_fixed_chars _ hfix1
  rw [h1, clean_html, fixEncoding_fixed _ hfix2, decode_escape, ser_text,
    pyStrip_escape, pyStrip_idem]

/-- Witness for the amended C7 idempotence at a concrete markup-free input
(with leading/trailing whitespace and an en dash to repair). -/
theorem clean_html_idem_amended_witness :
    ('<' ∉ ("  Hello – world  ".toList) ∧ '&' ∉ ("  Hello – world  ".toList)) ∧
    clean_html (clean_html ("  Hello – world  ".toList)) =
      clean_html ("  Hello – world  ".toList) :=
  ⟨⟨by decide, by decide⟩, clean_html_idem_amended _ (by decide) (by decide)⟩

end BlogTool
